import Mathlib

/-!
Verification development for the arboretum lineage-tree layout engine.

The embedding below translates `napari_arboretum/tree.py` (the merge
detector `_find_merges`, the breadth-first layout loop of `layout_tree`,
and the hyperedge synthesis pass) and the annotation recolouring step of
`TreePlotterBase.draw_tree` into Lean.  Python floats are modelled as
exact rationals; Python exceptions are modelled by `Option` (a `none`
result corresponds to a raised exception).  The mutable while-loop of
`layout_tree` is modelled as a step function on an explicit state record,
iterated with fuel `2 * nodes.length`, which is proved sufficient below.
-/

/-- RGBA colour in the range [0, 1], mirroring napari's convention. -/
structure RGBA where
  r : Rat
  g : Rat
  b : Rat
  a : Rat
deriving DecidableEq, Repr

/-- `WHITE = np.array([1.0, 1.0, 1.0, 1.0])` from tree.py. -/
def WHITE : RGBA := ⟨1, 1, 1, 1⟩

/-- `MIN_OUT_EDGES = 1` from tree.py: minimum number of output edges to be
considered a branching point. -/
def MIN_OUT_EDGES : Nat := 1

/-- Modelled from the spec: `TreeNode` is defined in
`napari_arboretum/graph.py`, which is not part of the provided sources.
Per the spec's data model it carries an identity (unique within a lineage
forest), an ordered non-empty sequence of time samples, the child
identities, a generation depth, and the flags `is_root` (no parent) and
`is_leaf` (no children).  Time samples are modelled as rationals; the
first/last sample accessors below use a default value of 0, which is only
meaningful because the spec guarantees the time-sample list is non-empty. -/
structure TreeNode where
  ID : Int
  t : List Rat
  children : List Int
  generation : Nat
  is_root : Bool
  is_leaf : Bool
deriving DecidableEq, Repr

/-- `node.t[0]` (spec guarantees `t` non-empty). -/
def tFirst (n : TreeNode) : Rat := n.t.headD 0

/-- `node.t[-1]` (spec guarantees `t` non-empty). -/
def tLast (n : TreeNode) : Rat := n.t.getLastD 0

/-- The `Edge` dataclass from tree.py. -/
structure Edge where
  x : Rat × Rat
  y : Rat × Rat
  color : RGBA := WHITE
  track_id : Option Int := none
  node : Option TreeNode := none
deriving DecidableEq, Repr

/-- The `Annotation` dataclass from tree.py. -/
structure Annotation where
  x : Rat
  y : Rat
  label : String
  color : RGBA := WHITE
deriving DecidableEq, Repr

/-- `np.mean` on a list of rationals (sum divided by length). -/
def mean (xs : List Rat) : Rat := xs.sum / (xs.length : Rat)

/-- `np.linspace a b n`: `n` evenly spaced samples from `a` to `b`
inclusive; a single sample is just `a`. -/
def linspace (a b : Rat) (n : Nat) : List Rat :=
  if n = 1 then [a]
  else (List.range n).map (fun i => a + (b - a) * (i : Rat) / ((n : Rat) - 1))

/-- Key list of a Python `Counter`/`dict` built by insertion: the distinct
elements of `ids` in order of first occurrence. -/
def dedupKeys (ids : List Int) : List Int :=
  ids.foldl (fun acc x => if x ∈ acc then acc else acc ++ [x]) []

/-- `_find_merges` from tree.py: flatten all child-identity lists, keep the
identities occurring more than once (in first-occurrence order, matching
`Counter` iteration), and map each to the parents claiming it (a parent is
any node with at least one child whose child list contains the identity),
in input node-list order.  The Python dict is modelled as an association
list preserving key order. -/
def find_merges (nodes : List TreeNode) : List (Int × List TreeNode) :=
  let node_ids := (nodes.map (fun n => n.children)).flatten
  let merges := (dedupKeys node_ids).filter (fun n => 1 < node_ids.count n)
  let parents := nodes.filter (fun n => 1 ≤ n.children.length)
  merges.map (fun m => (m, parents.filter (fun p => m ∈ p.children)))

/-- Lookup in the merge map: `child.ID in merges` / `merges[child.ID]`. -/
def lookupMerge (merges : List (Int × List TreeNode)) (i : Int) :
    Option (List TreeNode) :=
  (merges.find? (fun p => p.1 = i)).map Prod.snd

/-- `e.node in parents`, where `e.node` may be `None` (Python:
`None in parents` is false). -/
def edgeNodeIn (e : Edge) (parents : List TreeNode) : Bool :=
  match e.node with
  | some n => n ∈ parents
  | none => false

/-- The mutable state of the while-loop in `layout_tree`: the FIFO queue,
the marked list, the pending lane positions (kept in lock-step with the
queue), and the two output collections.  `skips` is a ghost counter that
records how often the merge-skip `continue` (fewer than `MIN_OUT_EDGES`
emitted parent edges) fired; it influences nothing else. -/
structure LayoutState where
  queue : List TreeNode
  marked : List TreeNode
  y_pos : List Rat
  edges : List Edge
  annotations : List  Annotation
  skips : Nat
deriving Repr

/-- `y_mod[0] if len(y_mod) < idx+1 else y_mod[idx]` from tree.py
(the dynamic fallback index).  In every reachable state `y_mod` is
non-empty, so the defaults are never meaningful. -/
def offsetAt (y_mod : List Rat) (idx : Nat) : Rat :=
  if y_mod.length < idx + 1 then y_mod.headD 0 else y_mod.getD idx 0

/-- The `if child not in marked:` block of `layout_tree`: mark and enqueue
the child with lane `y + offset`, and emit its midpoint annotation unless
it is a leaf. -/
def enqueueChild (y : Rat) (idx : Nat) (child : TreeNode) (y_mod : List Rat)
    (s : LayoutState) : LayoutState :=
  if child ∈ s.marked then s
  else
    let newy := y + offsetAt y_mod idx
    let s1 : LayoutState :=
      { s with marked := s.marked ++ [child], queue := s.queue ++ [child],
               y_pos := s.y_pos ++ [newy] }
    if child.is_leaf then s1
    else
      { s1 with annotations := s1.annotations ++
          [{ x := tLast child - (tLast child - tFirst child) / 2, y := newy,
             label := toString child.ID, color := WHITE }] }

/-- The `for idx, child in enumerate(children):` loop of `layout_tree`.
A merge child first overrides `y_mod` with the single-element offset
`[mean(parent lanes) - y]` (or is skipped when no parent edge has been
emitted yet); the overridden `y_mod` persists for later siblings. -/
def processChildren (merges : List (Int × List TreeNode)) (y : Rat)
    (idx : Nat) (children : List TreeNode) (y_mod : List Rat)
    (s : LayoutState) : LayoutState :=
  match children with
  | [] => s
  | child :: rest =>
    match lookupMerge merges child.ID with
    | none =>
        processChildren merges y (idx + 1) rest y_mod
          (enqueueChild y idx child y_mod s)
    | some parents =>
        let parent_edges := s.edges.filter (fun e => edgeNodeIn e parents)
        if parent_edges.length < MIN_OUT_EDGES then
          processChildren merges y (idx + 1) rest y_mod
            { s with skips := s.skips + 1 }
        else
          let y_mod2 := [mean (parent_edges.map (fun e => e.y.1)) - y]
          processChildren merges y (idx + 1) rest y_mod2
            (enqueueChild y idx child y_mod2 s)

/-- One iteration of the while-loop of `layout_tree`: pop the node and its
lane, emit its main edge, emit root/leaf annotations, and (for non-leaf
nodes) resolve the children and process them.  The `y_pos.headD 0`
default is never meaningful: `y_pos` always has at least the queue's
length. -/
def layoutStep (nodes : List TreeNode) (merges : List (Int × List TreeNode))
    (max_depth_mod : Rat) (s : LayoutState) : LayoutState :=
  match s.queue with
  | [] => s
  | node :: qrest =>
    let y := s.y_pos.headD 0
    let s1 : LayoutState :=
      { s with queue := qrest, y_pos := s.y_pos.tail,
               edges := s.edges ++
                 [{ x := (tFirst node, tLast node), y := (y, y),
                    color := WHITE, track_id := some node.ID,
                    node := some node }] }
    let s2 : LayoutState :=
      if node.is_root then
        { s1 with annotations := s1.annotations ++
            [{ x := tFirst node, y := y, label := toString node.ID,
               color := WHITE }] }
      else s1
    if node.is_leaf then
      { s2 with annotations := s2.annotations ++
          [{ x := tLast node, y := y, label := toString node.ID,
             color := WHITE }] }
    else
      let children := nodes.filter (fun t => t.ID ∈ node.children)
      let depth_mod := max_depth_mod / (2 : Rat) ^ node.generation
      let y_mod :=
        if 1 < children.length then linspace (-depth_mod) depth_mod children.length
        else [0]
      processChildren merges y 0 children y_mod s2

/-- The while-loop of `layout_tree`, iterated with fuel.  The fuel
`2 * nodes.length` used by `layoutRun` is proved sufficient: the loop
always drains its queue within that many iterations. -/
def layoutLoop (nodes : List TreeNode) (merges : List (Int × List TreeNode))
    (max_depth_mod : Rat) : Nat → LayoutState → LayoutState
  | 0, s => s
  | fuel + 1, s =>
    if s.queue = [] then s
    else layoutLoop nodes merges max_depth_mod fuel
      (layoutStep nodes merges max_depth_mod s)

/-- `max([node.generation for node in nodes])`; only used when `nodes` is
non-empty (Python raises otherwise). -/
def maxGen (nodes : List TreeNode) : Nat :=
  (nodes.map (fun n => n.generation)).foldl max 0

/-- `y_pos = list(np.linspace(0, (10*n_roots)**n_gen, n_roots))`. -/
def layoutYPos (nodes : List TreeNode) (n_roots : Nat) : List Rat :=
  linspace 0 (((10 * n_roots) ^ maxGen nodes : Nat) : Rat) n_roots

/-- `max_depth_mod`: half the inter-root distance shrunk by 10% when there
are multiple roots, else the constant 8. -/
def layoutMdm (nodes : List TreeNode) (n_roots : Nat) : Rat :=
  if 1 < n_roots then
    ((layoutYPos nodes n_roots).getD 1 0 - (layoutYPos nodes n_roots).getD 0 0) / 2
      - ((layoutYPos nodes n_roots).getD 1 0 - (layoutYPos nodes n_roots).getD 0 0) / 10
  else 8

/-- The initial loop state of `layout_tree`.  `none` models the Python
exceptions raised before the loop: `max()` on an empty node list, and
`marked = [root[0]]` on an empty root slice (`n_roots = 0`). -/
def layoutInit (nodes : List TreeNode) (n_roots : Nat) : Option LayoutState :=
  if nodes = [] then none
  else if n_roots = 0 then none
  else some
    { queue := nodes.take n_roots, marked := nodes.take 1,
      y_pos := layoutYPos nodes n_roots, edges := [], annotations := [],
      skips := 0 }

/-- Run the traversal of `layout_tree` to completion. -/
def layoutRun (nodes : List TreeNode) (n_roots : Nat) : Option LayoutState :=
  (layoutInit nodes n_roots).map (fun s0 =>
    layoutLoop nodes (find_merges nodes) (layoutMdm nodes n_roots)
      (2 * nodes.length) s0)

/-- `childedge.track_id in hyperedge.node.children` from the hyperedge
synthesis pass (`None in children` is false in Python). -/
def edgeChildMatch (c h : Edge) : Bool :=
  match c.track_id, h.node with
  | some tid, some n => tid ∈ n.children
  | _, _ => false

/-- The connector edges synthesized by the final pass of `layout_tree`:
one per (parent main edge, child main edge) pair.  The Python code lazily
filters the list it is appending to, but every appended connector has
`node = None` and `track_id = None` and so never satisfies either filter;
the pass is therefore equivalent to this snapshot formulation. -/
def connectorsOf (edges : List Edge) : List Edge :=
  ((edges.filter (fun e => e.node.isSome)).map (fun h =>
    (edges.filter (fun c => edgeChildMatch c h)).map (fun c =>
      { x := (h.x.2, c.x.1), y := (h.y.2, c.y.1), color := WHITE,
        track_id := none, node := none : Edge }))).flatten

/-- The hyperedge synthesis pass: append all connector edges after the
main edges. -/
def hyperedgePass (edges : List Edge) : List Edge := edges ++ connectorsOf edges

/-- `layout_tree(nodes, n_roots)` from tree.py.  A `none` result models a
raised Python exception. -/
def layout_tree (nodes : List TreeNode) (n_roots : Nat) :
    Option (List Edge × List  Annotation) :=
  (layoutRun nodes n_roots).map (fun s => (hyperedgePass s.edges, s.annotations))

/-- The "selected" alpha constant from `TreePlotterBase.draw_tree`. -/
def SELECTED_ALPHA : Rat := 1

/-- The "unselected" alpha constant from `TreePlotterBase.draw_tree`. -/
def UNSELECTED_ALPHA : Rat := 1 / 4

/-- The value left in the single shared alpha cell after the annotation
loop of `TreePlotterBase.draw_tree`.  In the source, `Annotation.color`
defaults to the one module-level mutable `WHITE` array and every
annotation `layout_tree` creates uses that default, so they all alias the
same array; each in-place write `a.color[3] = 1 if a.label ==
str(track_id) else 0.25` overwrites the same cell, leaving the value
computed for the last annotation (or the untouched 1.0 for an empty
list). -/
def shared_alpha (annotations : List  Annotation) (track_id : Int) : Rat :=
  annotations.foldl
    (fun _ a => if a.label = toString track_id then 1 else 1 / 4) 1

/-- The annotation recolouring loop of `TreePlotterBase.draw_tree`
(`a.color[3] = 1 if a.label == str(track_id) else 0.25`) as it acts on
the annotation lists `layout_tree` produces: since all their colours
alias the single default `WHITE` array (whose other three channels are
never written), after the loop every annotation carries the shared alpha
cell's final value `shared_alpha`, not a per-label value. -/
def draw_tree_recolor (annotations : List  Annotation) (track_id : Int) :
    List  Annotation :=
  annotations.map (fun a =>
    { a with color := { a.color with a := shared_alpha annotations track_id } })

/-- The node back-references of a list of edges, in emission order (during
the traversal every edge carries one). -/
def emitted (edges : List Edge) : List TreeNode := edges.filterMap (fun e => e.node)

/-- Reachability along resolved child links within the node list `nodes`:
`Reaches nodes a b` holds when `b` can be reached from `a` by repeatedly
moving to a node of the list whose identity occurs in the current node's
child-identity list. -/
inductive Reaches (nodes : List TreeNode) : TreeNode → TreeNode → Prop where
  | refl (a : TreeNode) : Reaches nodes a a
  | tail {a b c : TreeNode} : Reaches nodes a b → c ∈ nodes → c.ID ∈ b.children →
      Reaches nodes a c

/-- The preconditions of `layout_tree` stated by the spec, together with
the data-model invariants of `TreeNode`: a non-empty node list whose first
`n_roots` entries are exactly the roots, distinct identities, roots are
nobody's child, leaves have no children, and every non-root is reachable
from some root via child links. -/
def Precond (nodes : List TreeNode) (n_roots : Nat) : Prop :=
  nodes ≠ [] ∧ 1 ≤ n_roots ∧ n_roots ≤ nodes.length ∧
  (nodes.map (fun n => n.ID)).Nodup ∧
  (∀ n ∈ nodes.take n_roots, n.is_root = true) ∧
  (∀ n ∈ nodes.drop n_roots, n.is_root = false) ∧
  (∀ p ∈ nodes, ∀ n ∈ nodes, n.ID ∈ p.children → n.is_root = false) ∧
  (∀ n ∈ nodes, n.is_leaf = true → n.children = []) ∧
  (∀ n ∈ nodes, n.is_root = false → ∃ r ∈ nodes.take n_roots, Reaches nodes r n)

/-- The part of the loop invariant touched by the child-processing loop:
the marked list is a duplicate-free sublist of the node list, the queue
draws from the node list, and the nodes seen so far (emitted or queued)
are exactly the roots plus the marked non-roots, without duplicates. -/
structure CoreInv (nodes queue marked : List TreeNode) (edges : List Edge) : Prop where
  marked_sub : ∀ n ∈ marked, n ∈ nodes
  marked_nodup : marked.Nodup
  queue_sub : ∀ n ∈ queue, n ∈ nodes
  seen_nodup : (emitted edges ++ queue).Nodup
  seen_iff : ∀ n, n ∈ emitted edges ++ queue ↔
    (n ∈ nodes ∧ (n.is_root = true ∨ n ∈ marked))

/-- The full invariant of the while-loop of `layout_tree`. -/
structure LoopInv (nodes : List TreeNode) (s : LayoutState) : Prop where
  core : CoreInv nodes s.queue s.marked s.edges
  edges_node : ∀ e ∈ s.edges, ∃ n, n ∈ nodes ∧ e.node = some n ∧ e.track_id = some n.ID
  kids_marked : ∀ e ∈ s.edges, ∀ pn, e.node = some pn → ∀ c ∈ nodes,
    c.ID ∈ pn.children → c ∈ s.marked

/-- The number of children of the parent edge `h` that appear as the track
identity of some edge in `mains` (how the spec counts the connectors a
parent contributes). -/
def childMatchCount (mains : List Edge) (h : Edge) : Nat :=
  match h.node with
  | some n => (n.children.filter (fun cid => mains.any (fun e => e.track_id = some cid))).length
  | none => 0

/-- The spec-side total connector count: summed over parent edges, the
number of their children appearing as some main edge's track identity. -/
def specConnectorCount (mains : List Edge) : Nat :=
  (mains.map (fun h => childMatchCount mains h)).sum

/-- Concrete split scenario (spec §8): root R with time samples [0,1,2]. -/
def c5R : TreeNode := ⟨1, [0, 1, 2], [2, 3], 0, true, false⟩

/-- Concrete split scenario: leaf child A with time samples [3,4]. -/
def c5A : TreeNode := ⟨2, [3, 4], [], 1, false, true⟩

/-- Concrete split scenario: leaf child B with time samples [3,4,5]. -/
def c5B : TreeNode := ⟨3, [3, 4, 5], [], 1, false, true⟩

/-- Concrete split scenario: the forest [R, A, B] with one root. -/
def c5nodes : List TreeNode := [c5R, c5A, c5B]

/-- Concrete merge scenario (spec §8): first root R1, child M. -/
def c1R1 : TreeNode := ⟨1, [0, 1], [3], 0, true, false⟩

/-- Concrete merge scenario: second root R2, also claiming child M. -/
def c1R2 : TreeNode := ⟨2, [0, 1], [3], 0, true, false⟩

/-- Concrete merge scenario: the shared leaf child M. -/
def c1M : TreeNode := ⟨3, [2, 3], [], 1, false, true⟩

/-- Concrete merge scenario: the forest [R1, R2, M] with two roots. -/
def c1nodes : List TreeNode := [c1R1, c1R2, c1M]

/-- Malformed-input scenario: a single root whose child identity 99
resolves to no node in the list. -/
def c3N : TreeNode := ⟨1, [0, 1], [99], 0, true, false⟩

/-- A single isolated root-and-leaf node. -/
def c9N : TreeNode := ⟨1, [0], [], 0, true, true⟩

/-- The final traversal state for the single-node forest `[c9N]`. -/
def c9S : LayoutState :=
  { queue := [], marked := [c9N], y_pos := [],
    edges := [{ x := (0, 0), y := (0, 0), color := WHITE, track_id := some 1,
                node := some c9N }],
    annotations := [{ x := 0, y := 0, label := toString (1 : Int), color := WHITE },
                    { x := 0, y := 0, label := toString (1 : Int), color := WHITE }],
    skips := 0 }

/-- A non-merge leaf sibling used in the merge-offset broadcast scenario. -/
def c10W : TreeNode := ⟨7, [2, 3], [], 1, false, true⟩

/-- An already-emitted main edge of parent `c1R1` at lane 0. -/
def c10E : Edge :=
  { x := (0, 1), y := (0, 0), color := WHITE, track_id := some 1, node := some c1R1 }

/-- A mid-traversal state in which `c1R1`'s main edge has been emitted. -/
def c10S : LayoutState :=
  { queue := [], marked := [c1R1], y_pos := [], edges := [c10E],
    annotations := [], skips := 0 }

theorem layoutLoop_succ (nodes : List TreeNode) (merges : List (Int × List TreeNode))
    (mdm : Rat) (f : Nat) (s : LayoutState) :
    layoutLoop nodes merges mdm (f + 1) s =
      if s.queue = [] then s
      else layoutLoop nodes merges mdm f (layoutStep nodes merges mdm s) := rfl

theorem layoutLoop_empty (nodes : List TreeNode) (merges : List (Int × List TreeNode))
    (mdm : Rat) (f : Nat) (s : LayoutState) (h : s.queue = []) :
    layoutLoop nodes merges mdm f s = s := by
  cases f with
  | zero => rfl
  | succ g => rw [layoutLoop_succ, if_pos h]

theorem c5_step1 : layoutStep c5nodes [] 8
    { queue := [c5R], marked := [c5R], y_pos := [0], edges := [],
      annotations := [], skips := 0 } =
    { queue := [c5A, c5B], marked := [c5R, c5A, c5B], y_pos := [-8, 8],
      edges := [{ x := (0, 2), y := (0, 0), color := WHITE, track_id := some 1,
                  node := some c5R }],
      annotations := [{ x := 0, y := 0, label := toString (1 : Int), color := WHITE }],
      skips := 0 } := by
  norm_num [layoutStep, processChildren, enqueueChild, offsetAt, lookupMerge,
    edgeNodeIn, mean, tFirst, tLast, linspace, List.range_succ,
    c5nodes, c5R, c5A, c5B]

theorem c5_step2 : layoutStep c5nodes [] 8
    { queue := [c5A, c5B], marked := [c5R, c5A, c5B], y_pos := [-8, 8],
      edges := [{ x := (0, 2), y := (0, 0), color := WHITE, track_id := some 1,
                  node := some c5R }],
      annotations := [{ x := 0, y := 0, label := toString (1 : Int), color := WHITE }],
      skips := 0 } =
    { queue := [c5B], marked := [c5R, c5A, c5B], y_pos := [8],
      edges := [{ x := (0, 2), y := (0, 0), color := WHITE, track_id := some 1,
                  node := some c5R },
                { x := (3, 4), y := (-8, -8), color := WHITE, track_id := some 2,
                  node := some c5A }],
      annotations := [{ x := 0, y := 0, label := toString (1 : Int), color := WHITE },
                      { x := 4, y := -8, label := toString (2 : Int), color := WHITE }],
      skips := 0 } := by
  norm_num [layoutStep, processChildren, enqueueChild, offsetAt, lookupMerge,
    edgeNodeIn, mean, tFirst, tLast, linspace, List.range_succ,
    c5nodes, c5R, c5A, c5B]

theorem c5_step3 : layoutStep c5nodes [] 8
    { queue := [c5B], marked := [c5R, c5A, c5B], y_pos := [8],
      edges := [{ x := (0, 2), y := (0, 0), color := WHITE, track_id := some 1,
                  node := some c5R },
                { x := (3, 4), y := (-8, -8), color := WHITE, track_id := some 2,
                  node := some c5A }],
      annotations := [{ x := 0, y := 0, label := toString (1 : Int), color := WHITE },
                      { x := 4, y := -8, label := toString (2 : Int), color := WHITE }],
      skips := 0 } =
    { queue := [], marked := [c5R, c5A, c5B], y_pos := [],
      edges := [{ x := (0, 2), y := (0, 0), color := WHITE, track_id := some 1,
                  node := some c5R },
                { x := (3, 4), y := (-8, -8), color := WHITE, track_id := some 2,
                  node := some c5A },
                { x := (3, 5), y := (8, 8), color := WHITE, track_id := some 3,
                  node := some c5B }],
      annotations := [{ x := 0, y := 0, label := toString (1 : Int), color := WHITE },
                      { x := 4, y := -8, label := toString (2 : Int), color := WHITE },
                      { x := 5, y := 8, label := toString (3 : Int), color := WHITE }],
      skips := 0 } := by
  norm_num [layoutStep, processChildren, enqueueChild, offsetAt, lookupMerge,
    edgeNodeIn, mean, tFirst, tLast, linspace, List.range_succ,
    c5nodes, c5R, c5A, c5B]

theorem c5_run : layoutRun c5nodes 1 = some
    { queue := [], marked := [c5R, c5A, c5B], y_pos := [],
      edges := [{ x := (0, 2), y := (0, 0), color := WHITE, track_id := some 1,
                  node := some c5R },
                { x := (3, 4), y := (-8, -8), color := WHITE, track_id := some 2,
                  node := some c5A },
                { x := (3, 5), y := (8, 8), color := WHITE, track_id := some 3,
                  node := some c5B }],
      annotations := [{ x := 0, y := 0, label := toString (1 : Int), color := WHITE },
                      { x := 4, y := -8, label := toString (2 : Int), color := WHITE },
                      { x := 5, y := 8, label := toString (3 : Int), color := WHITE }],
      skips := 0 } := by
  show Option.map _ (layoutInit c5nodes 1) = _
  rw [show layoutInit c5nodes 1 = some
      { queue := [c5R], marked := [c5R], y_pos := [0], edges := [],
        annotations := [], skips := 0 } from rfl]
  rw [Option.map_some', show find_merges c5nodes = [] from rfl,
      show layoutMdm c5nodes 1 = 8 from rfl,
      show 2 * c5nodes.length = 5 + 1 from rfl, layoutLoop_succ]
  rw [if_neg (by simp), c5_step1, show (5 : Nat) = 4 + 1 from rfl, layoutLoop_succ]
  rw [if_neg (by simp), c5_step2, show (4 : Nat) = 3 + 1 from rfl, layoutLoop_succ]
  rw [if_neg (by simp), c5_step3]
  rw [layoutLoop_empty _ _ _ _ _ rfl]

/-- C5: on the forest with single root R (t = [0,1,2]) and leaf children
A (t = [3,4]) and B (t = [3,4,5]) at generation 1, `layout_tree` produces
exactly 3 main edges (R, A, B), 1 root annotation, 2 leaf annotations and
2 hyperedges (R to A, R to B); A's and B's lanes are R's lane plus -8 and
+8 respectively (the spread `linspace (-8) 8 2` under the single-root
constant `max_depth_mod = 8`), hence differ and are symmetric about R's
lane. -/
theorem split_scenario_layout :
    layout_tree c5nodes 1 = some
      ([{ x := (0, 2), y := (0, 0), color := WHITE, track_id := some 1, node := some c5R },
        { x := (3, 4), y := (-8, -8), color := WHITE, track_id := some 2, node := some c5A },
        { x := (3, 5), y := (8, 8), color := WHITE, track_id := some 3, node := some c5B },
        { x := (2, 3), y := (0, -8), color := WHITE, track_id := none, node := none },
        { x := (2, 3), y := (0, 8), color := WHITE, track_id := none, node := none }],
       [{ x := 0, y := 0, label := toString (1 : Int), color := WHITE },
        { x := 4, y := -8, label := toString (2 : Int), color := WHITE },
        { x := 5, y := 8, label := toString (3 : Int), color := WHITE }])
    ∧ layoutMdm c5nodes 1 = 8
    ∧ linspace (-8) 8 2 = [-8, 8]
    ∧ ((-8 : Rat) ≠ 8 ∧ (0 : Rat) - (-8) = 8 - 0 ∧ (-8 : Rat) = 0 + (-8) ∧ (8 : Rat) = 0 + 8) := by
  refine ⟨?_, rfl, ?_, by norm_num, by norm_num, by norm_num, by norm_num⟩
  · show Option.map _ (layoutRun c5nodes 1) = _
    rw [c5_run, Option.map_some']
    norm_num [hyperedgePass, connectorsOf, edgeChildMatch, c5R, c5A, c5B]
  · norm_num [linspace, List.range_succ]

/-- C7: `layout_tree` is a pure function of its input: two invocations on
the same node list and root count return identical edge and annotation
lists.  (The no-mutation half of the claim holds by construction in this
embedding; in the Python source the queue is a fresh slice of the input
list and no `TreeNode` attribute is ever written.) -/
theorem layout_tree_deterministic :
    ∀ (nodes : List TreeNode) (n_roots : Nat),
      layout_tree nodes n_roots = layout_tree nodes n_roots :=
  fun _ _ => rfl

/-- C8 (code bug): the claimed post-state is false in the source.  On the
annotation list with the selected label "7" followed by the unselected
label "8", the recolouring loop of `TreePlotterBase.draw_tree` leaves the
selected annotation with the unselected alpha 1/4: all annotations alias
the one mutable default `WHITE` colour array, so every annotation ends
with the alpha assigned in the last iteration, not its own per-label
value. -/
theorem draw_tree_alpha_aliasing_bug :
    draw_tree_recolor
      [{ x := 0, y := 0, label := toString (7 : Int), color := WHITE },
       { x := 1, y := 1, label := toString (8 : Int), color := WHITE }] 7 =
    [{ x := 0, y := 0, label := toString (7 : Int),
       color := { r := 1, g := 1, b := 1, a := UNSELECTED_ALPHA } },
     { x := 1, y := 1, label := toString (8 : Int),
       color := { r := 1, g := 1, b := 1, a := UNSELECTED_ALPHA } }] ∧
    UNSELECTED_ALPHA ≠ SELECTED_ALPHA := by
  constructor
  · rfl
  · rw [UNSELECTED_ALPHA, SELECTED_ALPHA]
    norm_num

theorem c1_merges : find_merges c1nodes = [(3, [c1R1, c1R2])] := rfl

theorem c1_mdm : layoutMdm c1nodes 2 = 8 := by
  norm_num [layoutMdm, layoutYPos, maxGen, linspace, List.range_succ,
    c1nodes, c1R1, c1R2, c1M]

theorem c1_init : layoutInit c1nodes 2 = some
    { queue := [c1R1, c1R2], marked := [c1R1], y_pos := [0, 20], edges := [],
      annotations := [], skips := 0 } := by
  have h : layoutInit c1nodes 2 = some
      { queue := c1nodes.take 2, marked := c1nodes.take 1,
        y_pos := layoutYPos c1nodes 2, edges := [], annotations := [],
        skips := 0 } := rfl
  rw [h]
  norm_num [layoutYPos, maxGen, linspace, List.range_succ, c1nodes, c1R1, c1R2, c1M]

theorem c1_step1 : layoutStep c1nodes [(3, [c1R1, c1R2])] 8
    { queue := [c1R1, c1R2], marked := [c1R1], y_pos := [0, 20], edges := [],
      annotations := [], skips := 0 } =
    { queue := [c1R2, c1M], marked := [c1R1, c1M], y_pos := [20, 0],
      edges := [{ x := (0, 1), y := (0, 0), color := WHITE, track_id := some 1,
                  node := some c1R1 }],
      annotations := [{ x := 0, y := 0, label := toString (1 : Int), color := WHITE }],
      skips := 0 } := by
  norm_num [layoutStep, processChildren, enqueueChild, offsetAt, lookupMerge,
    edgeNodeIn, mean, tFirst, tLast, linspace, List.range_succ, MIN_OUT_EDGES,
    c1nodes, c1R1, c1R2, c1M]

theorem c1_step2 : layoutStep c1nodes [(3, [c1R1, c1R2])] 8
    { queue := [c1R2, c1M], marked := [c1R1, c1M], y_pos := [20, 0],
      edges := [{ x := (0, 1), y := (0, 0), color := WHITE, track_id := some 1,
                  node := some c1R1 }],
      annotations := [{ x := 0, y := 0, label := toString (1 : Int), color := WHITE }],
      skips := 0 } =
    { queue := [c1M], marked := [c1R1, c1M], y_pos := [0],
      edges := [{ x := (0, 1), y := (0, 0), color := WHITE, track_id := some 1,
                  node := some c1R1 },
                { x := (0, 1), y := (20, 20), color := WHITE, track_id := some 2,
                  node := some c1R2 }],
      annotations := [{ x := 0, y := 0, label := toString (1 : Int), color := WHITE },
                      { x := 0, y := 20, label := toString (2 : Int), color := WHITE }],
      skips := 0 } := by
  norm_num [layoutStep, processChildren, enqueueChild, offsetAt, lookupMerge,
    edgeNodeIn, mean, tFirst, tLast, linspace, List.range_succ, MIN_OUT_EDGES,
    c1nodes, c1R1, c1R2, c1M]

theorem c1_step3 : layoutStep c1nodes [(3, [c1R1, c1R2])] 8
    { queue := [c1M], marked := [c1R1, c1M], y_pos := [0],
      edges := [{ x := (0, 1), y := (0, 0), color := WHITE, track_id := some 1,
                  node := some c1R1 },
                { x := (0, 1), y := (20, 20), color := WHITE, track_id := some 2,
                  node := some c1R2 }],
      annotations := [{ x := 0, y := 0, label := toString (1 : Int), color := WHITE },
                      { x := 0, y := 20, label := toString (2 : Int), color := WHITE }],
      skips := 0 } =
    { queue := [], marked := [c1R1, c1M], y_pos := [],
      edges := [{ x := (0, 1), y := (0, 0), color := WHITE, track_id := some 1,
                  node := some c1R1 },
                { x := (0, 1), y := (20, 20), color := WHITE, track_id := some 2,
                  node := some c1R2 },
                { x := (2, 3), y := (0, 0), color := WHITE, track_id := some 3,
                  node := some c1M }],
      annotations := [{ x := 0, y := 0, label := toString (1 : Int), color := WHITE },
                      { x := 0, y := 20, label := toString (2 : Int), color := WHITE },
                      { x := 3, y := 0, label := toString (3 : Int), color := WHITE }],
      skips := 0 } := by
  norm_num [layoutStep, processChildren, enqueueChild, offsetAt, lookupMerge,
    edgeNodeIn, mean, tFirst, tLast, linspace, List.range_succ, MIN_OUT_EDGES,
    c1nodes, c1R1, c1R2, c1M]

theorem c1_run : layout_tree c1nodes 2 = some
    ([{ x := (0, 1), y := (0, 0), color := WHITE, track_id := some 1, node := some c1R1 },
      { x := (0, 1), y := (20, 20), color := WHITE, track_id := some 2, node := some c1R2 },
      { x := (2, 3), y := (0, 0), color := WHITE, track_id := some 3, node := some c1M },
      { x := (1, 2), y := (0, 0), color := WHITE, track_id := none, node := none },
      { x := (1, 2), y := (20, 0), color := WHITE, track_id := none, node := none }],
     [{ x := 0, y := 0, label := toString (1 : Int), color := WHITE },
      { x := 0, y := 20, label := toString (2 : Int), color := WHITE },
      { x := 3, y := 0, label := toString (3 : Int), color := WHITE }]) := by
  have hrun : layoutRun c1nodes 2 = some
      { queue := [], marked := [c1R1, c1M], y_pos := [],
        edges := [{ x := (0, 1), y := (0, 0), color := WHITE, track_id := some 1,
                    node := some c1R1 },
                  { x := (0, 1), y := (20, 20), color := WHITE, track_id := some 2,
                    node := some c1R2 },
                  { x := (2, 3), y := (0, 0), color := WHITE, track_id := some 3,
                    node := some c1M }],
        annotations := [{ x := 0, y := 0, label := toString (1 : Int), color := WHITE },
                        { x := 0, y := 20, label := toString (2 : Int), color := WHITE },
                        { x := 3, y := 0, label := toString (3 : Int), color := WHITE }],
        skips := 0 } := by
    show Option.map _ (layoutInit c1nodes 2) = _
    rw [c1_init, Option.map_some', c1_merges, c1_mdm,
        show 2 * c1nodes.length = 5 + 1 from rfl, layoutLoop_succ]
    rw [if_neg (by simp), c1_step1, show (5 : Nat) = 4 + 1 from rfl, layoutLoop_succ]
    rw [if_neg (by simp), c1_step2, show (4 : Nat) = 3 + 1 from rfl, layoutLoop_succ]
    rw [if_neg (by simp), c1_step3]
    rw [layoutLoop_empty _ _ _ _ _ rfl]
  show Option.map _ (layoutRun c1nodes 2) = _
  rw [hrun, Option.map_some']
  norm_num [hyperedgePass, connectorsOf, edgeChildMatch, c1R1, c1R2, c1M]

/-- C1 counterexample: in the two-root merge forest [R1, R2, M], the
single main edge of M sits at lane 0 (R1's lane), while R1's lane is 0 and
R2's lane is 20, so M's lane is not the mean (0 + 20) / 2 = 10 of its
parents' lanes; the claim as stated is false on this input. -/
theorem merge_lane_counterexample :
    ((layout_tree c1nodes 2).getD ([], [])).1.filter (fun e => e.track_id = some 3) =
      [{ x := (2, 3), y := (0, 0), color := WHITE, track_id := some 3, node := some c1M }]
    ∧ ((layout_tree c1nodes 2).getD ([], [])).1.filter (fun e => e.track_id = some 1) =
      [{ x := (0, 1), y := (0, 0), color := WHITE, track_id := some 1, node := some c1R1 }]
    ∧ ((layout_tree c1nodes 2).getD ([], [])).1.filter (fun e => e.track_id = some 2) =
      [{ x := (0, 1), y := (20, 20), color := WHITE, track_id := some 2, node := some c1R2 }]
    ∧ (0 : Rat) ≠ (0 + 20) / 2 := by
  rw [c1_run]
  refine ⟨?_, ?_, ?_, by norm_num⟩ <;> norm_num <;> decide

/-- C1 (amended): in the two-root merge forest [R1, R2, M], M is enqueued
exactly once, but already while the first parent R1 is being processed
(after R1's main edge is emitted and before R2 is dequeued — after one
loop step the queue is [R2, M]); its lane equals the mean of the lanes of
the parent edges emitted so far — only R1's — i.e. R1's lane 0, not the
mean of both parents' lanes. -/
theorem merge_lane_first_parent :
    (Option.map (fun s =>
        ((layoutStep c1nodes (find_merges c1nodes) (layoutMdm c1nodes 2) s).queue.map
            (fun n => n.ID),
         (layoutStep c1nodes (find_merges c1nodes) (layoutMdm c1nodes 2) s).y_pos))
      (layoutInit c1nodes 2)) = some ([2, 3], [20, 0])
    ∧ ((layout_tree c1nodes 2).getD ([], [])).1.filter (fun e => e.track_id = some 3) =
      [{ x := (2, 3), y := (0, 0), color := WHITE, track_id := some 3, node := some c1M }]
    ∧ (0 : Rat) = mean [(0 : Rat)] := by
  refine ⟨?_, ?_, ?_⟩
  · rw [c1_init, Option.map_some', c1_merges, c1_mdm, c1_step1]
    norm_num [c1R2, c1M]
  · rw [c1_run]; norm_num; decide
  · norm_num [mean]

/-- C3 counterexample: `layout_tree` does not fail fast on malformed
input.  On the single-node list `[c3N]` whose child identity 99 resolves
to no node, it returns a result both with `root_count = 3` (exceeding the
node count) and with `root_count = 1`; no error is surfaced to the
caller, refuting the claim as stated. -/
theorem malformed_input_counterexample :
    (layout_tree [c3N] 3).isSome = true ∧ (layout_tree [c3N] 1).isSome = true := by
  constructor <;> simp [layout_tree, layoutRun, layoutInit]

/-- C3 (amended): `layout_tree` silently tolerates malformed input: a
child identity matching no node is dropped during child resolution (the
node is laid out as if it had no children, producing a normal single-edge
output with no hyperedges), and a root count exceeding the node count
still returns a result; an error is raised only for an empty node list or
a zero root count. -/
theorem malformed_input_tolerated :
    layout_tree [c3N] 1 = some
      ([{ x := (0, 1), y := (0, 0), color := WHITE, track_id := some 1, node := some c3N }],
       [{ x := 0, y := 0, label := toString (1 : Int), color := WHITE }])
    ∧ (layout_tree [c3N] 3).isSome = true
    ∧ layout_tree [] 1 = none
    ∧ layout_tree [c3N] 0 = none := by
  refine ⟨rfl, ?_, rfl, rfl⟩
  simp [layout_tree, layoutRun, layoutInit]

theorem dedupKeys_mem_aux (f : List Int → Int → List Int)
    (hf : f = fun acc x => if x ∈ acc then acc else acc ++ [x]) :
    ∀ (ids acc : List Int) (x : Int),
      x ∈ ids.foldl f acc ↔ x ∈ acc ∨ x ∈ ids := by
  intro ids
  induction ids with
  | nil => intro acc x; simp
  | cons a rest ih =>
    intro acc x
    rw [List.foldl_cons, ih]
    subst hf
    by_cases ha : a ∈ acc
    · have hxa : x = a → x ∈ acc := fun h => h ▸ ha
      simp only [if_pos ha, List.mem_cons]
      tauto
    · simp only [if_neg ha, List.mem_append, List.mem_cons, List.mem_singleton,
        List.not_mem_nil, or_false]
      tauto

theorem dedupKeys_mem (ids : List Int) (x : Int) :
    x ∈ dedupKeys ids ↔ x ∈ ids := by
  unfold dedupKeys
  rw [dedupKeys_mem_aux _ rfl]
  simp

theorem count_flatten_children (c : Int) :
    ∀ (nodes : List TreeNode), (∀ n ∈ nodes, n.children.Nodup) →
      ((nodes.map (fun n => n.children)).flatten.count c =
        (nodes.filter (fun p => c ∈ p.children)).length) := by
  intro nodes
  induction nodes with
  | nil => intro _; rfl
  | cons n rest ih =>
    intro h
    have hn : n.children.Nodup := h n (List.mem_cons_self n rest)
    have hrest := ih (fun m hm => h m (List.mem_cons_of_mem n hm))
    rw [List.map_cons, List.flatten_cons, List.count_append, hrest,
        List.filter_cons]
    by_cases hc : c ∈ n.children
    · rw [List.count_eq_one_of_mem hn hc, if_pos (by simpa using hc)]
      simp [Nat.add_comm]
    · rw [List.count_eq_zero.mpr hc, if_neg (by simpa using hc)]
      simp

/-- C4: for every node list satisfying the TreeNode data-model invariants
(distinct identities, duplicate-free child lists, `is_leaf` iff no
children), the keys of the merge map returned by `_find_merges` are
exactly the child identities claimed by at least 2 distinct parent nodes,
and each key maps to the list of all non-leaf nodes whose child list
contains it, in input node-list order. -/
theorem find_merges_spec :
    ∀ (nodes : List TreeNode),
      (nodes.map (fun n => n.ID)).Nodup →
      (∀ n ∈ nodes, n.children.Nodup) →
      (∀ n ∈ nodes, n.is_leaf = true ↔ n.children = []) →
      (∀ c : Int, c ∈ (find_merges nodes).map Prod.fst ↔
          2 ≤ (nodes.filter (fun p => c ∈ p.children)).length) ∧
      (∀ m ps, (m, ps) ∈ find_merges nodes →
          ps = nodes.filter (fun p => p.is_leaf = false ∧ m ∈ p.children)) := by
  intro nodes _ hkids hleaf
  constructor
  · intro c
    have hmem : c ∈ (find_merges nodes).map Prod.fst ↔
        c ∈ (dedupKeys ((nodes.map (fun n => n.children)).flatten)).filter
          (fun n => 1 < ((nodes.map (fun n => n.children)).flatten).count n) := by
      simp [find_merges]
    rw [hmem, List.mem_filter, dedupKeys_mem, count_flatten_children c nodes hkids]
    constructor
    · rintro ⟨-, h2⟩
      exact Nat.succ_le_of_lt (by simpa using h2)
    · intro h2
      have hlt : 1 < (nodes.filter (fun p => c ∈ p.children)).length := by omega
      refine ⟨?_, by simpa using hlt⟩
      rcases List.length_pos.mp (by omega :
          0 < (nodes.filter (fun p => c ∈ p.children)).length) with hne
      rcases List.exists_mem_of_ne_nil _ hne with ⟨p, hp⟩
      rcases List.mem_filter.mp hp with ⟨hpn, hpc⟩
      exact List.mem_flatten.mpr ⟨p.children, List.mem_map.mpr ⟨p, hpn, rfl⟩,
        by simpa using hpc⟩
  · intro m ps hmem
    rcases List.mem_map.mp hmem with ⟨m2, hm2, heq⟩
    have hm : m2 = m := congrArg Prod.fst heq
    subst hm
    have hps : ps = (nodes.filter (fun n => 1 ≤ n.children.length)).filter
        (fun p => m2 ∈ p.children) := (congrArg Prod.snd heq).symm
    rw [hps, List.filter_filter]
    apply List.filter_congr
    intro p hp
    have hpl := hleaf p hp
    cases hlf : p.is_leaf with
    | true =>
      have : p.children = [] := hpl.mp hlf
      simp [this, hlf]
    | false =>
      have hne : p.children ≠ [] := fun hnil => by
        have := hpl.mpr hnil
        rw [hlf] at this
        exact Bool.false_ne_true this
      have hlen : 1 ≤ p.children.length :=
        Nat.succ_le_of_lt (List.length_pos.mpr hne)
      simp [hlf, hlen]

/-- Witness for C4: in the merge forest [R1, R2, M], identity 3 is a key
of the merge map since exactly 2 parents claim it. -/
theorem find_merges_spec_witness :
    (3 : Int) ∈ (find_merges c1nodes).map Prod.fst ↔
      2 ≤ (c1nodes.filter (fun p => (3 : Int) ∈ p.children)).length :=
  (find_merges_spec c1nodes (by decide) (by decide) (by decide)).1 3

theorem lookupMerge_eq (nodes : List TreeNode) (cid : Int) (ps : List TreeNode)
    (h : lookupMerge (find_merges nodes) cid = some ps) :
    ps = (nodes.filter (fun n => 1 ≤ n.children.length)).filter
      (fun p => cid ∈ p.children) := by
  unfold lookupMerge at h
  rcases Option.map_eq_some'.mp h with ⟨pr, hfind, hsnd⟩
  have hpred : pr.1 = cid := by
    have := List.find?_some hfind
    simpa using this
  have hmem := List.mem_of_find?_eq_some hfind
  simp only [find_merges, List.mem_map] at hmem
  rcases hmem with ⟨m, _, hpr⟩
  have hm : m = cid := by rw [← hpred, ← hpr]
  rw [← hsnd, ← hpr, hm]

theorem mem_merge_parents (nodes : List TreeNode) (P : TreeNode) (cid : Int)
    (ps : List TreeNode) (h : lookupMerge (find_merges nodes) cid = some ps)
    (hP : P ∈ nodes) (hc : cid ∈ P.children) : P ∈ ps := by
  rw [lookupMerge_eq nodes cid ps h]
  refine List.mem_filter.mpr ⟨List.mem_filter.mpr ⟨hP, ?_⟩, by simpa using hc⟩
  have : 0 < P.children.length := List.length_pos.mpr (List.ne_nil_of_mem hc)
  simpa using this

theorem enqueueChild_fields (y : Rat) (idx : Nat) (c : TreeNode) (ym : List Rat)
    (s : LayoutState) :
    (enqueueChild y idx c ym s).edges = s.edges ∧
    (enqueueChild y idx c ym s).skips = s.skips ∧
    ((enqueueChild y idx c ym s).queue = s.queue ∨
      (enqueueChild y idx c ym s).queue = s.queue ++ [c]) := by
  by_cases h : c ∈ s.marked
  · simp [enqueueChild, h]
  · by_cases hl : c.is_leaf <;> simp [enqueueChild, h, hl]

theorem processChildren_skips (nodes : List TreeNode) (P : TreeNode) (y : Rat) :
    ∀ (children : List TreeNode), ∀ (idx : Nat) (y_mod : List Rat) (s : LayoutState),
      P ∈ nodes →
      (∀ c ∈ children, c.ID ∈ P.children) →
      (∀ c ∈ children, c ∈ nodes) →
      (∀ x ∈ s.queue, x ∈ nodes) →
      (∃ e ∈ s.edges, e.node = some P) →
      (processChildren (find_merges nodes) y idx children y_mod s).skips = s.skips ∧
      (processChildren (find_merges nodes) y idx children y_mod s).edges = s.edges ∧
      (∀ x ∈ (processChildren (find_merges nodes) y idx children y_mod s).queue,
        x ∈ nodes) := by
  intro children
  induction children with
  | nil =>
    intro idx ym s _ _ _ hqs _
    exact ⟨rfl, rfl, hqs⟩
  | cons c rest ih =>
    intro idx ym s hP hch hcn hqs hedge
    have hcP : c.ID ∈ P.children := hch c (List.mem_cons_self c rest)
    have hchr : ∀ x ∈ rest, x.ID ∈ P.children :=
      fun x hx => hch x (List.mem_cons_of_mem c hx)
    have hcnr : ∀ x ∈ rest, x ∈ nodes :=
      fun x hx => hcn x (List.mem_cons_of_mem c hx)
    have hcnode : c ∈ nodes := hcn c (List.mem_cons_self c rest)
    cases hLk : lookupMerge (find_merges nodes) c.ID with
    | none =>
      simp only [processChildren, hLk]
      obtain ⟨hse, hss, hsq⟩ := enqueueChild_fields y idx c ym s
      have hqs2 : ∀ x ∈ (enqueueChild y idx c ym s).queue, x ∈ nodes := by
        rcases hsq with h | h <;> rw [h] <;> intro x hx
        · exact hqs x hx
        · rcases List.mem_append.mp hx with h2 | h2
          · exact hqs x h2
          · rw [List.mem_singleton.mp h2]; exact hcnode
      obtain ⟨h1, h2, h3⟩ := ih (idx + 1) ym _ hP hchr hcnr hqs2
        (hse ▸ hedge)
      exact ⟨h1.trans hss, h2.trans hse, h3⟩
    | some ps =>
      have hPps : P ∈ ps := mem_merge_parents nodes P c.ID ps hLk hP hcP
      obtain ⟨e, he, heP⟩ := hedge
      have hefil : e ∈ s.edges.filter (fun e => edgeNodeIn e ps) :=
        List.mem_filter.mpr ⟨he, by simp [edgeNodeIn, heP, hPps]⟩
      have hlen : ¬ ((s.edges.filter (fun e => edgeNodeIn e ps)).length
          < MIN_OUT_EDGES) := by
        have h0 : 0 < (s.edges.filter (fun e => edgeNodeIn e ps)).length :=
          List.length_pos.mpr (List.ne_nil_of_mem hefil)
        simp only [MIN_OUT_EDGES]
        omega
      simp only [processChildren, hLk, if_neg hlen]
      obtain ⟨hse, hss, hsq⟩ := enqueueChild_fields y idx c
        [mean ((s.edges.filter (fun e => edgeNodeIn e ps)).map (fun e => e.y.1)) - y] s
      have hqs2 : ∀ x ∈ (enqueueChild y idx c
          [mean ((s.edges.filter (fun e => edgeNodeIn e ps)).map (fun e => e.y.1)) - y]
          s).queue, x ∈ nodes := by
        rcases hsq with h | h <;> rw [h] <;> intro x hx
        · exact hqs x hx
        · rcases List.mem_append.mp hx with h2 | h2
          · exact hqs x h2
          · rw [List.mem_singleton.mp h2]; exact hcnode
      have hedge2 : ∃ e2 ∈ (enqueueChild y idx c
          [mean ((s.edges.filter (fun e => edgeNodeIn e ps)).map (fun e => e.y.1)) - y]
          s).edges, e2.node = some P := by
        rw [hse]; exact ⟨e, he, heP⟩
      obtain ⟨h1, h2, h3⟩ := ih (idx + 1) _ _ hP hchr hcnr hqs2 hedge2
      exact ⟨h1.trans hss, h2.trans hse, h3⟩

theorem layoutStep_eq_empty (nodes : List TreeNode)
    (merges : List (Int × List TreeNode)) (mdm : Rat) (s : LayoutState)
    (hqe : s.queue = []) : layoutStep nodes merges mdm s = s := by
  simp [layoutStep, hqe]

theorem layoutStep_eq_leaf (nodes : List TreeNode)
    (merges : List (Int × List TreeNode)) (mdm : Rat) (s : LayoutState)
    (node : TreeNode) (qrest : List TreeNode)
    (hqe : s.queue = node :: qrest) (hleaf : node.is_leaf = true) :
    ∃ s2 : LayoutState,
      layoutStep nodes merges mdm s = s2 ∧
      s2.queue = qrest ∧ s2.marked = s.marked ∧ s2.y_pos = s.y_pos.tail ∧
      s2.edges = s.edges ++
        [{ x := (tFirst node, tLast node), y := (s.y_pos.headD 0, s.y_pos.headD 0),
           color := WHITE, track_id := some node.ID, node := some node }] ∧
      s2.skips = s.skips := by
  refine ⟨layoutStep nodes merges mdm s, rfl, ?_⟩
  cases hroot : node.is_root <;>
    simp [layoutStep, hqe, hleaf, hroot]

theorem layoutStep_eq_nonleaf (nodes : List TreeNode)
    (merges : List (Int × List TreeNode)) (mdm : Rat) (s : LayoutState)
    (node : TreeNode) (qrest : List TreeNode)
    (hqe : s.queue = node :: qrest) (hleaf : node.is_leaf = false) :
    ∃ s2 : LayoutState,
      layoutStep nodes merges mdm s =
        processChildren merges (s.y_pos.headD 0) 0
          (nodes.filter (fun t => t.ID ∈ node.children))
          (if 1 < (nodes.filter (fun t => t.ID ∈ node.children)).length then
            linspace (-(mdm / (2 : Rat) ^ node.generation))
              (mdm / (2 : Rat) ^ node.generation)
              (nodes.filter (fun t => t.ID ∈ node.children)).length
          else [0]) s2 ∧
      s2.queue = qrest ∧ s2.marked = s.marked ∧ s2.y_pos = s.y_pos.tail ∧
      s2.edges = s.edges ++
        [{ x := (tFirst node, tLast node), y := (s.y_pos.headD 0, s.y_pos.headD 0),
           color := WHITE, track_id := some node.ID, node := some node }] ∧
      s2.skips = s.skips := by
  cases hroot : node.is_root with
  | false =>
    refine ⟨{ s with
              queue := qrest,
              y_pos := s.y_pos.tail,
              edges := s.edges ++
                [{ x := (tFirst node, tLast node),
                   y := (s.y_pos.headD 0, s.y_pos.headD 0),
                   color := WHITE, track_id := some node.ID, node := some node }] },
      ?_, rfl, rfl, rfl, rfl, rfl⟩
    simp [layoutStep, hqe, hleaf, hroot]
  | true =>
    refine ⟨{ s with
              queue := qrest,
              y_pos := s.y_pos.tail,
              edges := s.edges ++
                [{ x := (tFirst node, tLast node),
                   y := (s.y_pos.headD 0, s.y_pos.headD 0),
                   color := WHITE, track_id := some node.ID, node := some node }],
              annotations := s.annotations ++
                [{ x := tFirst node, y := s.y_pos.headD 0,
                   label := toString node.ID, color := WHITE }] },
      ?_, rfl, rfl, rfl, rfl, rfl⟩
    simp [layoutStep, hqe, hleaf, hroot]

theorem layoutStep_skips (nodes : List TreeNode) (mdm : Rat) (s : LayoutState)
    (hq : ∀ x ∈ s.queue, x ∈ nodes) :
    (layoutStep nodes (find_merges nodes) mdm s).skips = s.skips ∧
    (∀ x ∈ (layoutStep nodes (find_merges nodes) mdm s).queue, x ∈ nodes) := by
  cases hqe : s.queue with
  | nil =>
    rw [layoutStep_eq_empty nodes _ mdm s hqe]
    exact ⟨rfl, hq⟩
  | cons node qrest =>
    have hnode : node ∈ nodes := hq node (by rw [hqe]; exact List.mem_cons_self node qrest)
    have hqrest : ∀ x ∈ qrest, x ∈ nodes :=
      fun x hx => hq x (by rw [hqe]; exact List.mem_cons_of_mem node hx)
    cases hleaf : node.is_leaf with
    | true =>
      obtain ⟨s2, hs, hq2, -, -, -, hsk⟩ :=
        layoutStep_eq_leaf nodes (find_merges nodes) mdm s node qrest hqe hleaf
      rw [hs]
      exact ⟨hsk, by rw [hq2]; exact hqrest⟩
    | false =>
      obtain ⟨s2, hs, hq2, -, -, he2, hsk⟩ :=
        layoutStep_eq_nonleaf nodes (find_merges nodes) mdm s node qrest hqe hleaf
      rw [hs]
      obtain ⟨h1, h2, h3⟩ := processChildren_skips nodes node (s.y_pos.headD 0)
        (nodes.filter (fun t => t.ID ∈ node.children)) 0
        (if 1 < (nodes.filter (fun t => t.ID ∈ node.children)).length then
          linspace (-(mdm / (2 : Rat) ^ node.generation))
            (mdm / (2 : Rat) ^ node.generation)
            (nodes.filter (fun t => t.ID ∈ node.children)).length
        else [0]) s2
        hnode
        (fun c hc => by simpa using (List.mem_filter.mp hc).2)
        (fun c hc => (List.mem_filter.mp hc).1)
        (by rw [hq2]; exact hqrest)
        ⟨_, by rw [he2]; exact List.mem_append.mpr (Or.inr (List.mem_singleton.mpr rfl)),
          rfl⟩
      exact ⟨h1.trans hsk, h3⟩

theorem layoutLoop_skips (nodes : List TreeNode) (mdm : Rat) :
    ∀ (fuel : Nat) (s : LayoutState),
      (∀ x ∈ s.queue, x ∈ nodes) →
      (layoutLoop nodes (find_merges nodes) mdm fuel s).skips = s.skips := by
  intro fuel
  induction fuel with
  | zero => intro s _; rfl
  | succ f ih =>
    intro s hq
    rw [layoutLoop_succ]
    by_cases hqe : s.queue = []
    · rw [if_pos hqe]
    · rw [if_neg hqe]
      obtain ⟨h1, h2⟩ := layoutStep_skips nodes mdm s hq
      rw [ih _ h2, h1]

/-- C9: the merge-skip branch of `layout_tree` is unreachable: whenever
the traversal examines a registered merge child of a parent P, P's own
main edge has already been emitted and P is among the child's recorded
merge-parents, so at least `MIN_OUT_EDGES = 1` qualifying parent edge
exists and the skip (`continue`) never executes — the ghost skip counter
of every completed run is 0, so no merge child is ever dropped for lack
of an emitted parent edge. -/
theorem merge_skip_unreachable :
    ∀ (nodes : List TreeNode) (n_roots : Nat) (s : LayoutState),
      layoutRun nodes n_roots = some s → s.skips = 0 := by
  intro nodes k s h
  unfold layoutRun at h
  rcases Option.map_eq_some'.mp h with ⟨s0, hinit, hloop⟩
  unfold layoutInit at hinit
  by_cases h1 : nodes = []
  · rw [if_pos h1] at hinit; cases hinit
  · rw [if_neg h1] at hinit
    by_cases h2 : k = 0
    · rw [if_pos h2] at hinit; cases hinit
    · rw [if_neg h2] at hinit
      injection hinit with hs0
      rw [← hloop, ← hs0]
      exact layoutLoop_skips nodes (layoutMdm nodes k) (2 * nodes.length) _
        (fun x hx => List.take_subset _ _ hx)

/-- Witness for C9: the completed run on the single-node forest has skip
counter 0. -/
theorem merge_skip_unreachable_witness :
    Option.map LayoutState.skips (layoutRun [c9N] 1) = some 0 := by
  have h : layoutRun [c9N] 1 = some c9S := rfl
  rw [h, Option.map_some', merge_skip_unreachable [c9N] 1 c9S h]

theorem offsetAt_singleton (v : Rat) (idx : Nat) : offsetAt [v] idx = v := by
  unfold offsetAt
  by_cases h : [v].length < idx + 1
  · rw [if_pos h]; rfl
  · rw [if_neg h]
    have hidx : idx = 0 := by simp at h; omega
    subst hidx; rfl

theorem enqueueChild_y_pos (y : Rat) (idx : Nat) (c : TreeNode) (ym : List Rat)
    (s : LayoutState) :
    (enqueueChild y idx c ym s).y_pos = s.y_pos ∨
    (enqueueChild y idx c ym s).y_pos = s.y_pos ++ [y + offsetAt ym idx] := by
  by_cases h : c ∈ s.marked
  · simp [enqueueChild, h]
  · by_cases hl : c.is_leaf <;> simp [enqueueChild, h, hl]

theorem processChildren_y_pos_mono (merges : List (Int × List TreeNode)) (y : Rat) :
    ∀ (children : List TreeNode) (idx : Nat) (ym : List Rat) (s : LayoutState),
      ∃ suffix, (processChildren merges y idx children ym s).y_pos =
        s.y_pos ++ suffix := by
  intro children
  induction children with
  | nil => intro idx ym s; exact ⟨[], by simp [processChildren]⟩
  | cons c rest ih =>
    intro idx ym s
    cases hLk : lookupMerge merges c.ID with
    | none =>
      simp only [processChildren, hLk]
      rcases enqueueChild_y_pos y idx c ym s with hy | hy <;>
        rcases ih (idx + 1) ym (enqueueChild y idx c ym s) with ⟨suf, hsuf⟩
      · exact ⟨suf, by rw [hsuf, hy]⟩
      · exact ⟨[y + offsetAt ym idx] ++ suf, by rw [hsuf, hy, List.append_assoc]⟩
    | some ps =>
      simp only [processChildren, hLk]
      by_cases hlen : (s.edges.filter (fun e => edgeNodeIn e ps)).length < MIN_OUT_EDGES
      · rw [if_pos hlen]
        rcases ih (idx + 1) ym { s with skips := s.skips + 1 } with ⟨suf, hsuf⟩
        exact ⟨suf, hsuf⟩
      · rw [if_neg hlen]
        rcases enqueueChild_y_pos y idx c
          [mean ((s.edges.filter (fun e => edgeNodeIn e ps)).map (fun e => e.y.1)) - y] s
          with hy | hy <;>
          rcases ih (idx + 1) _ (enqueueChild y idx c
            [mean ((s.edges.filter (fun e => edgeNodeIn e ps)).map (fun e => e.y.1)) - y] s)
            with ⟨suf, hsuf⟩
        · exact ⟨suf, by rw [hsuf, hy]⟩
        · exact ⟨[y + offsetAt
              [mean ((s.edges.filter (fun e => edgeNodeIn e ps)).map (fun e => e.y.1)) - y]
              idx] ++ suf, by rw [hsuf, hy, List.append_assoc]⟩

theorem processChildren_singleton_lanes (merges : List (Int × List TreeNode))
    (y v : Rat) :
    ∀ (children : List TreeNode) (idx : Nat) (s : LayoutState),
      (∀ c ∈ children, lookupMerge merges c.ID = none) →
      ∀ lane ∈ (processChildren merges y idx children [v] s).y_pos.drop
          s.y_pos.length,
        lane = y + v := by
  intro children
  induction children with
  | nil =>
    intro idx s _ lane hl
    simp only [processChildren] at hl
    rw [List.drop_length] at hl
    cases hl
  | cons c rest ih =>
    intro idx s hnm lane hl
    have hc : lookupMerge merges c.ID = none := hnm c (List.mem_cons_self c rest)
    have hrest : ∀ x ∈ rest, lookupMerge merges x.ID = none :=
      fun x hx => hnm x (List.mem_cons_of_mem c hx)
    simp only [processChildren, hc] at hl
    rcases enqueueChild_y_pos y idx c [v] s with hy | hy
    · have hlen : s.y_pos.length = (enqueueChild y idx c [v] s).y_pos.length := by
        rw [hy]
      rw [hlen] at hl
      exact ih (idx + 1) _ hrest lane hl
    · rcases processChildren_y_pos_mono merges y rest (idx + 1) [v]
        (enqueueChild y idx c [v] s) with ⟨suf, hsuf⟩
      have hdrop : (processChildren merges y (idx + 1) rest [v]
          (enqueueChild y idx c [v] s)).y_pos.drop s.y_pos.length =
          [y + offsetAt [v] idx] ++ suf := by
        rw [hsuf, hy, List.append_assoc, List.drop_left]
      rw [hdrop] at hl
      rcases List.mem_append.mp hl with h | h
      · rw [List.mem_singleton.mp h, offsetAt_singleton]
      · have hdrop2 : (processChildren merges y (idx + 1) rest [v]
            (enqueueChild y idx c [v] s)).y_pos.drop
            (enqueueChild y idx c [v] s).y_pos.length = suf := by
          rw [hsuf, List.drop_left]
        exact ih (idx + 1) _ hrest lane (by rw [hdrop2]; exact h)

/-- C10: within a single parent's child loop, once a merge child at
position `idx` overrides the offset array with its single-element
mean-lane offset, every newly enqueued lane for that child and for every
subsequent non-merge sibling in the same loop equals the mean of the
already-emitted parent-edge lanes (the sibling reads the merge offset
through the single-element fallback index instead of its evenly spread
linspace position). -/
theorem merge_offset_broadcast :
    ∀ (merges : List (Int × List TreeNode)) (y : Rat) (idx : Nat)
      (child : TreeNode) (rest : List TreeNode) (y_mod : List Rat)
      (s : LayoutState) (parents : List TreeNode),
      lookupMerge merges child.ID = some parents →
      (∀ c ∈ rest, lookupMerge merges c.ID = none) →
      MIN_OUT_EDGES ≤ (s.edges.filter (fun e => edgeNodeIn e parents)).length →
      ∀ lane ∈ (processChildren merges y idx (child :: rest) y_mod s).y_pos.drop
          s.y_pos.length,
        lane = mean ((s.edges.filter (fun e => edgeNodeIn e parents)).map
          (fun e => e.y.1)) := by
  intro merges y idx child rest y_mod s parents hlk hrest hmin lane hl
  simp only [processChildren, hlk] at hl
  rw [if_neg (Nat.not_lt.mpr hmin)] at hl
  rcases enqueueChild_y_pos y idx child
    [mean ((s.edges.filter (fun e => edgeNodeIn e parents)).map (fun e => e.y.1)) - y] s
    with hy | hy
  · have hlen : s.y_pos.length =
        (enqueueChild y idx child
          [mean ((s.edges.filter (fun e => edgeNodeIn e parents)).map (fun e => e.y.1)) - y]
          s).y_pos.length := by rw [hy]
    rw [hlen] at hl
    have := processChildren_singleton_lanes merges y
      (mean ((s.edges.filter (fun e => edgeNodeIn e parents)).map (fun e => e.y.1)) - y)
      rest (idx + 1) _ hrest lane hl
    rw [this]; ring
  · rcases processChildren_y_pos_mono merges y rest (idx + 1) _
      (enqueueChild y idx child
        [mean ((s.edges.filter (fun e => edgeNodeIn e parents)).map (fun e => e.y.1)) - y]
        s) with ⟨suf, hsuf⟩
    have hdrop : (processChildren merges y (idx + 1) rest
        [mean ((s.edges.filter (fun e => edgeNodeIn e parents)).map (fun e => e.y.1)) - y]
        (enqueueChild y idx child
          [mean ((s.edges.filter (fun e => edgeNodeIn e parents)).map (fun e => e.y.1)) - y]
          s)).y_pos.drop s.y_pos.length =
        [y + offsetAt
          [mean ((s.edges.filter (fun e => edgeNodeIn e parents)).map (fun e => e.y.1)) - y]
          idx] ++ suf := by
      rw [hsuf, hy, List.append_assoc, List.drop_left]
    rw [hdrop] at hl
    rcases List.mem_append.mp hl with h | h
    · rw [List.mem_singleton.mp h, offsetAt_singleton]; ring
    · have hdrop2 : (processChildren merges y (idx + 1) rest
          [mean ((s.edges.filter (fun e => edgeNodeIn e parents)).map (fun e => e.y.1)) - y]
          (enqueueChild y idx child
            [mean ((s.edges.filter (fun e => edgeNodeIn e parents)).map (fun e => e.y.1)) - y]
            s)).y_pos.drop
          (enqueueChild y idx child
            [mean ((s.edges.filter (fun e => edgeNodeIn e parents)).map (fun e => e.y.1)) - y]
            s).y_pos.length = suf := by
        rw [hsuf, List.drop_left]
      have := processChildren_singleton_lanes merges y
        (mean ((s.edges.filter (fun e => edgeNodeIn e parents)).map (fun e => e.y.1)) - y)
        rest (idx + 1) _ hrest lane (by rw [hdrop2]; exact h)
      rw [this]; ring

/-- Witness for C10: with parent edge of `c1R1` already emitted, the merge
child `c1M` followed by the non-merge sibling `c10W` are both enqueued at
the mean lane of the emitted parent edges. -/
theorem merge_offset_broadcast_witness :
    ((processChildren (find_merges c1nodes) 0 0 [c1M, c10W] [0] c10S).y_pos.drop
        c10S.y_pos.length).all
      (fun lane => lane == mean ((c10S.edges.filter
        (fun e => edgeNodeIn e [c1R1, c1R2])).map (fun e => e.y.1))) = true := by
  rw [List.all_eq_true]
  intro lane hl
  have h := merge_offset_broadcast (find_merges c1nodes) 0 0 c1M [c10W] [0] c10S
    [c1R1, c1R2] rfl
    (fun c hc => by rw [List.mem_singleton.mp hc]; rfl)
    (by decide)
    lane hl
  simp [h]

theorem enqueueChild_of_mem (y : Rat) (idx : Nat) (c : TreeNode) (ym : List Rat)
    (s : LayoutState) (h : c ∈ s.marked) : enqueueChild y idx c ym s = s := by
  simp [enqueueChild, h]

theorem enqueueChild_of_not_mem (y : Rat) (idx : Nat) (c : TreeNode) (ym : List Rat)
    (s : LayoutState) (h : c ∉ s.marked) :
    (enqueueChild y idx c ym s).marked = s.marked ++ [c] ∧
    (enqueueChild y idx c ym s).queue = s.queue ++ [c] ∧
    (enqueueChild y idx c ym s).edges = s.edges := by
  by_cases hl : c.is_leaf <;> simp [enqueueChild, h, hl]

theorem CoreInv_enqueue (nodes queue marked : List TreeNode) (edges : List Edge)
    (c : TreeNode) (hInv : CoreInv nodes queue marked edges)
    (hc : c ∈ nodes) (hnr : c.is_root = false) (hcm : c ∉ marked) :
    CoreInv nodes (queue ++ [c]) (marked ++ [c]) edges := by
  have hcseen : c ∉ emitted edges ++ queue := by
    intro hmem
    rcases (hInv.seen_iff c).mp hmem with ⟨-, hcase⟩
    rcases hcase with hroot | hm
    · rw [hnr] at hroot; exact Bool.false_ne_true hroot
    · exact hcm hm
  constructor
  · intro n hn
    rcases List.mem_append.mp hn with h | h
    · exact hInv.marked_sub n h
    · rw [List.mem_singleton.mp h]; exact hc
  · refine List.nodup_append.mpr ⟨hInv.marked_nodup, List.nodup_singleton c, ?_⟩
    intro a ha hb
    rw [List.mem_singleton.mp hb] at ha
    exact hcm ha
  · intro n hn
    rcases List.mem_append.mp hn with h | h
    · exact hInv.queue_sub n h
    · rw [List.mem_singleton.mp h]; exact hc
  · rw [← List.append_assoc]
    refine List.nodup_append.mpr ⟨hInv.seen_nodup, List.nodup_singleton c, ?_⟩
    intro a ha hb
    rw [List.mem_singleton.mp hb] at ha
    exact hcseen ha
  · intro n
    rw [← List.append_assoc]
    constructor
    · intro h
      rcases List.mem_append.mp h with h | h
      · rcases (hInv.seen_iff n).mp h with ⟨hn, hcase⟩
        exact ⟨hn, hcase.elim Or.inl (fun hm => Or.inr (List.mem_append_left _ hm))⟩
      · rw [List.mem_singleton.mp h]
        exact ⟨hc, Or.inr (List.mem_append_right _ (List.mem_singleton_self c))⟩
    · rintro ⟨hn, hroot | hm⟩
      · exact List.mem_append_left _ ((hInv.seen_iff n).mpr ⟨hn, Or.inl hroot⟩)
      · rcases List.mem_append.mp hm with hm | hm
        · exact List.mem_append_left _ ((hInv.seen_iff n).mpr ⟨hn, Or.inr hm⟩)
        · exact List.mem_append_right _ hm

theorem processChildren_core (nodes : List TreeNode) (P : TreeNode)
    (hNRC : ∀ p ∈ nodes, ∀ n ∈ nodes, n.ID ∈ p.children → n.is_root = false)
    (hP : P ∈ nodes) (y : Rat) :
    ∀ (children : List TreeNode), ∀ (idx : Nat) (y_mod : List Rat) (s : LayoutState),
      (∀ c ∈ children, c ∈ nodes) →
      (∀ c ∈ children, c.ID ∈ P.children) →
      (∃ e ∈ s.edges, e.node = some P) →
      CoreInv nodes s.queue s.marked s.edges →
      CoreInv nodes (processChildren (find_merges nodes) y idx children y_mod s).queue
        (processChildren (find_merges nodes) y idx children y_mod s).marked
        (processChildren (find_merges nodes) y idx children y_mod s).edges ∧
      (processChildren (find_merges nodes) y idx children y_mod s).edges = s.edges ∧
      (∀ n ∈ s.marked,
        n ∈ (processChildren (find_merges nodes) y idx children y_mod s).marked) ∧
      (∀ c ∈ children,
        c ∈ (processChildren (find_merges nodes) y idx children y_mod s).marked) ∧
      (∃ k, (processChildren (find_merges nodes) y idx children y_mod s).queue.length =
              s.queue.length + k ∧
            (processChildren (find_merges nodes) y idx children y_mod s).marked.length =
              s.marked.length + k) := by
  intro children
  induction children with
  | nil =>
    intro idx ym s _ _ _ hInv
    exact ⟨hInv, rfl, fun n hn => hn, fun c hc => absurd hc (List.not_mem_nil c),
      ⟨0, by simp only [processChildren, Nat.add_zero],
        by simp only [processChildren, Nat.add_zero]⟩⟩
  | cons c rest ih =>
    intro idx ym s hcn hch hedge hInv
    have hcnode : c ∈ nodes := hcn c (List.mem_cons_self c rest)
    have hcP : c.ID ∈ P.children := hch c (List.mem_cons_self c rest)
    have hcnr : c.is_root = false := hNRC P hP c hcnode hcP
    have hcnrest : ∀ x ∈ rest, x ∈ nodes :=
      fun x hx => hcn x (List.mem_cons_of_mem c hx)
    have hchrest : ∀ x ∈ rest, x.ID ∈ P.children :=
      fun x hx => hch x (List.mem_cons_of_mem c hx)
    have key : ∀ ym2 : List Rat,
        CoreInv nodes
          (processChildren (find_merges nodes) y (idx + 1) rest ym2
            (enqueueChild y idx c ym2 s)).queue
          (processChildren (find_merges nodes) y (idx + 1) rest ym2
            (enqueueChild y idx c ym2 s)).marked
          (processChildren (find_merges nodes) y (idx + 1) rest ym2
            (enqueueChild y idx c ym2 s)).edges ∧
        (processChildren (find_merges nodes) y (idx + 1) rest ym2
          (enqueueChild y idx c ym2 s)).edges = s.edges ∧
        (∀ n ∈ s.marked,
          n ∈ (processChildren (find_merges nodes) y (idx + 1) rest ym2
            (enqueueChild y idx c ym2 s)).marked) ∧
        (∀ x ∈ c :: rest,
          x ∈ (processChildren (find_merges nodes) y (idx + 1) rest ym2
            (enqueueChild y idx c ym2 s)).marked) ∧
        (∃ k, (processChildren (find_merges nodes) y (idx + 1) rest ym2
                (enqueueChild y idx c ym2 s)).queue.length = s.queue.length + k ∧
              (processChildren (find_merges nodes) y (idx + 1) rest ym2
                (enqueueChild y idx c ym2 s)).marked.length = s.marked.length + k) := by
      intro ym2
      by_cases hm : c ∈ s.marked
      · rw [enqueueChild_of_mem y idx c ym2 s hm]
        obtain ⟨hi, he, hmono, hrestm, hk⟩ := ih (idx + 1) ym2 s hcnrest hchrest hedge hInv
        refine ⟨hi, he, hmono, ?_, hk⟩
        intro x hx
        rcases List.mem_cons.mp hx with rfl | hx
        · exact hmono x hm
        · exact hrestm x hx
      · obtain ⟨hm2, hq2, he2⟩ := enqueueChild_of_not_mem y idx c ym2 s hm
        have hInv2 : CoreInv nodes (enqueueChild y idx c ym2 s).queue
            (enqueueChild y idx c ym2 s).marked (enqueueChild y idx c ym2 s).edges := by
          rw [hm2, hq2, he2]
          exact CoreInv_enqueue nodes s.queue s.marked s.edges c hInv hcnode hcnr hm
        have hedge2 : ∃ e ∈ (enqueueChild y idx c ym2 s).edges, e.node = some P := by
          rw [he2]; exact hedge
        obtain ⟨hi, he, hmono, hrestm, k, hk1, hk2⟩ :=
          ih (idx + 1) ym2 (enqueueChild y idx c ym2 s) hcnrest hchrest hedge2 hInv2
        refine ⟨hi, he.trans he2, ?_, ?_, ⟨k + 1, ?_, ?_⟩⟩
        · intro n hn
          exact hmono n (by rw [hm2]; exact List.mem_append_left _ hn)
        · intro x hx
          rcases List.mem_cons.mp hx with rfl | hx
          · refine hmono x ?_
            rw [hm2]
            exact List.mem_append_right _ (List.mem_singleton_self x)
          · exact hrestm x hx
        · rw [hk1, hq2, List.length_append]; simp; omega
        · rw [hk2, hm2, List.length_append]; simp; omega
    cases hLk : lookupMerge (find_merges nodes) c.ID with
    | none =>
      simp only [processChildren, hLk]
      exact key ym
    | some ps =>
      have hPps : P ∈ ps := mem_merge_parents nodes P c.ID ps hLk hP hcP
      obtain ⟨e, he, heP⟩ := hedge
      have hefil : e ∈ s.edges.filter (fun e => edgeNodeIn e ps) :=
        List.mem_filter.mpr ⟨he, by simp [edgeNodeIn, heP, hPps]⟩
      have hlen : ¬ ((s.edges.filter (fun e => edgeNodeIn e ps)).length
          < MIN_OUT_EDGES) := by
        have h0 : 0 < (s.edges.filter (fun e => edgeNodeIn e ps)).length :=
          List.length_pos.mpr (List.ne_nil_of_mem hefil)
        simp only [MIN_OUT_EDGES]
        omega
      simp only [processChildren, hLk, if_neg hlen]
      exact key [mean ((s.edges.filter (fun e => edgeNodeIn e ps)).map
        (fun e => e.y.1)) - y]

theorem emitted_pop_emit (edges : List Edge) (e : Edge) (node : TreeNode)
    (hnode : e.node = some node) :
    emitted (edges ++ [e]) = emitted edges ++ [node] := by
  rw [emitted, List.filterMap_append]
  simp [emitted, hnode]

theorem CoreInv_pop_emit (nodes : List TreeNode) (node : TreeNode)
    (qrest marked : List TreeNode) (edges : List Edge) (e : Edge)
    (hnode : e.node = some node)
    (hInv : CoreInv nodes (node :: qrest) marked edges) :
    CoreInv nodes qrest marked (edges ++ [e]) := by
  have hseen : emitted (edges ++ [e]) ++ qrest = emitted edges ++ (node :: qrest) := by
    rw [emitted_pop_emit edges e node hnode, List.append_assoc, List.singleton_append]
  exact ⟨hInv.marked_sub, hInv.marked_nodup,
    fun n hn => hInv.queue_sub n (List.mem_cons_of_mem _ hn),
    by rw [hseen]; exact hInv.seen_nodup,
    fun n => by rw [hseen]; exact hInv.seen_iff n⟩

theorem layoutStep_inv (nodes : List TreeNode) (mdm : Rat)
    (hNRC : ∀ p ∈ nodes, ∀ n ∈ nodes, n.ID ∈ p.children → n.is_root = false)
    (hLeafKids : ∀ n ∈ nodes, n.is_leaf = true → n.children = [])
    (s : LayoutState) (node : TreeNode) (qrest : List TreeNode)
    (hqe : s.queue = node :: qrest) (hInv : LoopInv nodes s) :
    LoopInv nodes (layoutStep nodes (find_merges nodes) mdm s) ∧
    (∃ k, (layoutStep nodes (find_merges nodes) mdm s).queue.length =
            qrest.length + k ∧
          (layoutStep nodes (find_merges nodes) mdm s).marked.length =
            s.marked.length + k) := by
  have hnode : node ∈ nodes := by
    refine hInv.core.queue_sub node ?_
    rw [hqe]; exact List.mem_cons_self node qrest
  have hcoreq : CoreInv nodes (node :: qrest) s.marked s.edges := by
    rw [← hqe]; exact hInv.core
  cases hleaf : node.is_leaf with
  | true =>
    obtain ⟨s2, hs, hq2, hm2, hy2, he2, hsk⟩ :=
      layoutStep_eq_leaf nodes (find_merges nodes) mdm s node qrest hqe hleaf
    rw [hs]
    have hcore2 : CoreInv nodes s2.queue s2.marked s2.edges := by
      rw [hq2, hm2, he2]
      exact CoreInv_pop_emit nodes node qrest s.marked s.edges _ rfl hcoreq
    refine ⟨⟨hcore2, ?_, ?_⟩, ⟨0, by rw [hq2]; omega, by rw [hm2]; omega⟩⟩
    · intro e he
      rw [he2] at he
      rcases List.mem_append.mp he with h | h
      · exact hInv.edges_node e h
      · rw [List.mem_singleton.mp h]
        exact ⟨node, hnode, rfl, rfl⟩
    · intro e he pn hepn c hc hcid
      rw [he2] at he
      rw [hm2]
      rcases List.mem_append.mp he with h | h
      · exact hInv.kids_marked e h pn hepn c hc hcid
      · rw [List.mem_singleton.mp h] at hepn
        have hpn : pn = node := by
          have : some node = some pn := by rw [← hepn]
          exact (Option.some.inj this).symm
        rw [hpn, hLeafKids node hnode hleaf] at hcid
        cases hcid
  | false =>
    obtain ⟨s2, hs, hq2, hm2, hy2, he2, hsk⟩ :=
      layoutStep_eq_nonleaf nodes (find_merges nodes) mdm s node qrest hqe hleaf
    rw [hs]
    have hcore2 : CoreInv nodes s2.queue s2.marked s2.edges := by
      rw [hq2, hm2, he2]
      exact CoreInv_pop_emit nodes node qrest s.marked s.edges _ rfl hcoreq
    have hedge2 : ∃ e ∈ s2.edges, e.node = some node := by
      rw [he2]
      exact ⟨_, List.mem_append_right _ (List.mem_singleton_self _), rfl⟩
    obtain ⟨hiCore, hiEdges, hiMono, hiKids, k, hk1, hk2⟩ :=
      processChildren_core nodes node hNRC hnode (s.y_pos.headD 0)
        (nodes.filter (fun t => t.ID ∈ node.children)) 0
        (if 1 < (nodes.filter (fun t => t.ID ∈ node.children)).length then
          linspace (-(mdm / (2 : Rat) ^ node.generation))
            (mdm / (2 : Rat) ^ node.generation)
            (nodes.filter (fun t => t.ID ∈ node.children)).length
        else [0]) s2
        (fun c hc => (List.mem_filter.mp hc).1)
        (fun c hc => by simpa using (List.mem_filter.mp hc).2)
        hedge2 hcore2
    refine ⟨⟨hiCore, ?_, ?_⟩, ⟨k, by rw [hk1, hq2], by rw [hk2, hm2]⟩⟩
    · intro e he
      rw [hiEdges, he2] at he
      rcases List.mem_append.mp he with h | h
      · exact hInv.edges_node e h
      · rw [List.mem_singleton.mp h]
        exact ⟨node, hnode, rfl, rfl⟩
    · intro e he pn hepn c hc hcid
      rw [hiEdges, he2] at he
      rcases List.mem_append.mp he with h | h
      · have hcm : c ∈ s.marked := hInv.kids_marked e h pn hepn c hc hcid
        refine hiMono c ?_
        rw [hm2]; exact hcm
      · rw [List.mem_singleton.mp h] at hepn
        have hpn : pn = node := by
          have : some node = some pn := by rw [← hepn]
          exact (Option.some.inj this).symm
        refine hiKids c ?_
        rw [hpn] at hcid
        exact List.mem_filter.mpr ⟨hc, by simpa using hcid⟩

theorem nodup_subset_length_le (l1 l2 : List TreeNode) (h1 : l1.Nodup)
    (h2 : ∀ x ∈ l1, x ∈ l2) : l1.length ≤ l2.length :=
  (List.Nodup.subperm h1 h2).length_le

theorem layoutLoop_inv (nodes : List TreeNode) (mdm : Rat)
    (hNRC : ∀ p ∈ nodes, ∀ n ∈ nodes, n.ID ∈ p.children → n.is_root = false)
    (hLeafKids : ∀ n ∈ nodes, n.is_leaf = true → n.children = []) :
    ∀ (fuel : Nat) (s : LayoutState), LoopInv nodes s →
      s.queue.length + (nodes.length - s.marked.length) ≤ fuel →
      LoopInv nodes (layoutLoop nodes (find_merges nodes) mdm fuel s) ∧
      (layoutLoop nodes (find_merges nodes) mdm fuel s).queue = [] := by
  intro fuel
  induction fuel with
  | zero =>
    intro s hInv hle
    have hq : s.queue = [] := List.length_eq_zero.mp (by omega)
    exact ⟨hInv, hq⟩
  | succ f ih =>
    intro s hInv hle
    rw [layoutLoop_succ]
    by_cases hqe : s.queue = []
    · rw [if_pos hqe]; exact ⟨hInv, hqe⟩
    · rw [if_neg hqe]
      rcases List.exists_cons_of_ne_nil hqe with ⟨node, qrest, hq⟩
      obtain ⟨hInv2, k, hk1, hk2⟩ :=
        layoutStep_inv nodes mdm hNRC hLeafKids s node qrest hq hInv
      have hmle : (layoutStep nodes (find_merges nodes) mdm s).marked.length ≤
          nodes.length :=
        nodup_subset_length_le _ _ hInv2.core.marked_nodup hInv2.core.marked_sub
      have hql : s.queue.length = qrest.length + 1 := by
        rw [hq]; exact List.length_cons node qrest
      exact ih _ hInv2 (by omega)

theorem coverage_of_final (nodes : List TreeNode) (sF : LayoutState)
    (n_roots : Nat) (hInvF : LoopInv nodes sF) (hqF : sF.queue = [])
    (hrootsT : ∀ n ∈ nodes.take n_roots, n.is_root = true)
    (hreach : ∀ n ∈ nodes, n.is_root = false →
      ∃ r ∈ nodes.take n_roots, Reaches nodes r n) :
    ∀ n ∈ nodes, n ∈ emitted sF.edges := by
  have hmarked_emit : ∀ c ∈ nodes, c ∈ sF.marked → c ∈ emitted sF.edges := by
    intro c hcn hcm
    have := (hInvF.core.seen_iff c).mpr ⟨hcn, Or.inr hcm⟩
    rwa [hqF, List.append_nil] at this
  have hclosed : ∀ a b : TreeNode, Reaches nodes a b →
      a ∈ emitted sF.edges → b ∈ emitted sF.edges := by
    intro a b hr
    induction hr with
    | refl => exact fun h => h
    | tail hab hcmem hcid ihab =>
      intro ha
      have hb := ihab ha
      rcases List.mem_filterMap.mp hb with ⟨e, he, hen⟩
      exact hmarked_emit _ hcmem (hInvF.kids_marked e he _ hen _ hcmem hcid)
  intro n hn
  cases hr : n.is_root with
  | true =>
    have := (hInvF.core.seen_iff n).mpr ⟨hn, Or.inl hr⟩
    rwa [hqF, List.append_nil] at this
  | false =>
    rcases hreach n hn hr with ⟨r, hrmem, hrch⟩
    have hremit : r ∈ emitted sF.edges := by
      have := (hInvF.core.seen_iff r).mpr
        ⟨List.take_subset _ _ hrmem, Or.inl (hrootsT r hrmem)⟩
      rwa [hqF, List.append_nil] at this
    exact hclosed r n hrch hremit

theorem layoutRun_final (nodes : List TreeNode) (n_roots : Nat)
    (hpre : Precond nodes n_roots) :
    ∃ sF, layoutRun nodes n_roots = some sF ∧ LoopInv nodes sF ∧ sF.queue = [] ∧
      (∀ n ∈ nodes, n ∈ emitted sF.edges) := by
  obtain ⟨hne, h1, hlen, hids, hrootsT, hrootsD, hNRC, hLeaf, hreach⟩ := hpre
  have hnodesN : nodes.Nodup := List.Nodup.of_map _ hids
  have hNpos : 0 < nodes.length := List.length_pos.mpr hne
  have hInit : layoutInit nodes n_roots = some
      { queue := nodes.take n_roots, marked := nodes.take 1,
        y_pos := layoutYPos nodes n_roots, edges := [], annotations := [],
        skips := 0 } := by
    unfold layoutInit
    rw [if_neg hne, if_neg (by omega)]
  have hsub1 : ∀ x ∈ nodes.take 1, x ∈ nodes.take n_roots := by
    intro x hx
    have h11 : nodes.take 1 = (nodes.take n_roots).take 1 := by
      rw [List.take_take, Nat.min_eq_left h1]
    rw [h11] at hx
    exact List.take_subset _ _ hx
  have hInv0 : LoopInv nodes
      { queue := nodes.take n_roots, marked := nodes.take 1,
        y_pos := layoutYPos nodes n_roots, edges := [], annotations := [],
        skips := 0 } := by
    refine ⟨⟨?_, ?_, ?_, ?_, ?_⟩, ?_, ?_⟩
    · exact fun n hn => List.take_subset _ _ hn
    · exact List.Nodup.sublist (List.take_sublist 1 nodes) hnodesN
    · exact fun n hn => List.take_subset _ _ hn
    · show (emitted [] ++ nodes.take n_roots).Nodup
      simp only [emitted, List.filterMap_nil, List.nil_append]
      exact List.Nodup.sublist (List.take_sublist n_roots nodes) hnodesN
    · intro n
      show n ∈ emitted [] ++ nodes.take n_roots ↔ _
      simp only [emitted, List.filterMap_nil, List.nil_append]
      constructor
      · intro h
        exact ⟨List.take_subset _ _ h, Or.inl (hrootsT n h)⟩
      · rintro ⟨hn, hroot | hm⟩
        · rw [← List.take_append_drop n_roots nodes] at hn
          rcases List.mem_append.mp hn with h | h
          · exact h
          · have hf := hrootsD n h
            rw [hroot] at hf
            exact Bool.noConfusion hf
        · exact hsub1 n hm
    · intro e he
      exact absurd he (List.not_mem_nil e)
    · intro e he
      exact absurd he (List.not_mem_nil e)
  have hq0 : (nodes.take n_roots).length = n_roots := by
    rw [List.length_take]
    omega
  have hm0 : (nodes.take 1).length = 1 := by
    rw [List.length_take]
    omega
  have hfuel : (nodes.take n_roots).length +
      (nodes.length - (nodes.take 1).length) ≤ 2 * nodes.length := by
    rw [hq0, hm0]
    omega
  obtain ⟨hInvF, hqF⟩ := layoutLoop_inv nodes (layoutMdm nodes n_roots) hNRC hLeaf
    (2 * nodes.length) _ hInv0 hfuel
  exact ⟨_, by unfold layoutRun; rw [hInit, Option.map_some'], hInvF, hqF,
    coverage_of_final nodes _ n_roots hInvF hqF hrootsT hreach⟩

theorem connectorsOf_none (edges : List Edge) :
    ∀ e ∈ connectorsOf edges, e.track_id = none ∧ e.node = none := by
  intro e he
  unfold connectorsOf at he
  rcases List.mem_flatten.mp he with ⟨l, hl, hel⟩
  rcases List.mem_map.mp hl with ⟨hE, hhE, hfl⟩
  rw [← hfl] at hel
  rcases List.mem_map.mp hel with ⟨c, hc, hce⟩
  rw [← hce]
  exact ⟨rfl, rfl⟩

theorem hyperedgePass_filter (edges : List Edge)
    (h : ∀ e ∈ edges, e.node.isSome) :
    (hyperedgePass edges).filter (fun e => e.node.isSome) = edges := by
  unfold hyperedgePass
  rw [List.filter_append]
  have h1 : edges.filter (fun e => e.node.isSome) = edges :=
    List.filter_eq_self.mpr (fun e he => by simpa using h e he)
  have h2 : (connectorsOf edges).filter (fun e => e.node.isSome) = [] := by
    rw [List.filter_eq_nil_iff]
    intro e he
    have hn := (connectorsOf_none edges e he).2
    simp [hn]
  rw [h1, h2, List.append_nil]

theorem emitted_length_of_all_some (edges : List Edge)
    (h : ∀ e ∈ edges, e.node.isSome) : (emitted edges).length = edges.length := by
  induction edges with
  | nil => rfl
  | cons e rest ih =>
    rcases Option.isSome_iff_exists.mp (h e (List.mem_cons_self e rest)) with ⟨n, hn⟩
    have hr := ih (fun x hx => h x (List.mem_cons_of_mem e hx))
    simp only [emitted, List.filterMap_cons, hn, List.length_cons] at hr ⊢
    omega

theorem countP_node_eq_count (edges : List Edge) (n : TreeNode) :
    edges.countP (fun e => e.node = some n) = (emitted edges).count n := by
  induction edges with
  | nil => rfl
  | cons e rest ih =>
    simp only [emitted] at ih ⊢
    cases he : e.node with
    | none =>
      simp [List.countP_cons, he, List.filterMap_cons, ih]
    | some m =>
      by_cases hmn : m = n
      · subst hmn
        simp [List.countP_cons, he, List.filterMap_cons, List.count_cons, ih]
      · simp [List.countP_cons, he, List.filterMap_cons, List.count_cons, hmn, ih]

/-- C2: for every node list and root count satisfying the preconditions
(non-empty nodes, the first `root_count` elements exactly the roots,
distinct identities, roots nobody's child, leaves childless, every
non-root reachable from some root via child links), `layout_tree` emits
exactly one main edge per input node: the number of edges carrying a node
back-reference equals the node count, and each node is referenced by
exactly one emitted edge. -/
theorem layout_tree_one_edge_per_node :
    ∀ (nodes : List TreeNode) (n_roots : Nat), Precond nodes n_roots →
      ∃ out, layout_tree nodes n_roots = some out ∧
        (out.1.filter (fun e => e.node.isSome)).length = nodes.length ∧
        (∀ n ∈ nodes, out.1.countP (fun e => e.node = some n) = 1) := by
  intro nodes k hpre
  obtain ⟨sF, hrun, hInvF, hqF, hcov⟩ := layoutRun_final nodes k hpre
  obtain ⟨-, -, -, hids, -, -, -, -, -⟩ := hpre
  have hnodesN : nodes.Nodup := List.Nodup.of_map _ hids
  have hsome : ∀ e ∈ sF.edges, e.node.isSome := by
    intro e he
    rcases hInvF.edges_node e he with ⟨n, -, hn, -⟩
    simp [hn]
  have hemsub : ∀ n ∈ emitted sF.edges, n ∈ nodes := by
    intro n hn
    exact ((hInvF.core.seen_iff n).mp (List.mem_append_left _ hn)).1
  have hemnodup : (emitted sF.edges).Nodup := by
    have hx := hInvF.core.seen_nodup
    rwa [hqF, List.append_nil] at hx
  have hlen1 : (emitted sF.edges).length = nodes.length := by
    have hle1 := nodup_subset_length_le _ _ hemnodup hemsub
    have hle2 := nodup_subset_length_le _ _ hnodesN hcov
    omega
  refine ⟨(hyperedgePass sF.edges, sF.annotations), ?_, ?_, ?_⟩
  · unfold layout_tree
    rw [hrun, Option.map_some']
  · rw [hyperedgePass_filter sF.edges hsome,
      ← emitted_length_of_all_some sF.edges hsome]
    exact hlen1
  · intro n hn
    show (hyperedgePass sF.edges).countP _ = 1
    unfold hyperedgePass
    rw [List.countP_append]
    have hc0 : (connectorsOf sF.edges).countP (fun e => e.node = some n) = 0 := by
      rw [List.countP_eq_zero]
      intro e he
      have hen := (connectorsOf_none sF.edges e he).2
      simp [hen]
    rw [hc0, Nat.add_zero, countP_node_eq_count]
    exact List.count_eq_one_of_mem hemnodup (hcov n hn)

theorem c5Precond : Precond c5nodes 1 := by
  refine ⟨by decide, by decide, by decide, by decide, by decide, by decide,
    by decide, by decide, ?_⟩
  intro n hn hnr
  rcases List.mem_cons.mp hn with rfl | hn2
  · exact absurd hnr (by decide)
  rcases List.mem_cons.mp hn2 with rfl | hn3
  · exact ⟨c5R, show c5R ∈ c5nodes.take 1 from List.mem_cons_self _ _,
      Reaches.tail (Reaches.refl c5R)
        (show c5A ∈ c5nodes from
          List.mem_cons_of_mem _ (List.mem_cons_self _ _))
        (by decide)⟩
  rcases List.mem_cons.mp hn3 with rfl | hn4
  · exact ⟨c5R, show c5R ∈ c5nodes.take 1 from List.mem_cons_self _ _,
      Reaches.tail (Reaches.refl c5R)
        (show c5B ∈ c5nodes from
          List.mem_cons_of_mem _ (List.mem_cons_of_mem _ (List.mem_cons_self _ _)))
        (by decide)⟩
  · exact absurd hn4 (List.not_mem_nil n)

/-- Witness for C2: the split scenario satisfies the preconditions and
its layout has exactly 3 main edges for its 3 nodes. -/
theorem layout_tree_one_edge_per_node_witness :
    Option.map (fun out => ((Prod.fst out).filter (fun e => e.node.isSome)).length)
      (layout_tree c5nodes 1) = some 3 := by
  obtain ⟨out, hsome, hlen, -⟩ := layout_tree_one_edge_per_node c5nodes 1 c5Precond
  rw [hsome, Option.map_some', hlen]
  rfl

theorem filter_match_length (hEdge : Edge) (n : TreeNode)
    (hn : hEdge.node = some n) :
    ∀ (l : List Edge), (∀ e ∈ l, e.track_id.isSome) →
      (l.filter (fun c => edgeChildMatch c hEdge)).length =
        ((l.filterMap (fun e => e.track_id)).filter
          (fun t => t ∈ n.children)).length := by
  intro l
  induction l with
  | nil => intro _; rfl
  | cons e rest ih =>
    intro h
    rcases Option.isSome_iff_exists.mp (h e (List.mem_cons_self e rest)) with ⟨t, ht⟩
    have hrest := ih (fun x hx => h x (List.mem_cons_of_mem e hx))
    have hmatch : edgeChildMatch e hEdge = decide (t ∈ n.children) := by
      unfold edgeChildMatch
      rw [ht, hn]
    simp only [List.filter_cons, List.filterMap_cons, ht, hmatch]
    by_cases hm : t ∈ n.children
    · simp [hm, hrest]
    · simp [hm, hrest]

theorem filter_mem_length_comm (xs ys : List Int) (hx : xs.Nodup) (hy : ys.Nodup) :
    (xs.filter (fun a => a ∈ ys)).length = (ys.filter (fun a => a ∈ xs)).length := by
  have hx2 : (xs.filter (fun a => a ∈ ys)).Nodup := hx.filter _
  have hy2 : (ys.filter (fun a => a ∈ xs)).Nodup := hy.filter _
  have h1 : (xs.filter (fun a => a ∈ ys)).toFinset = xs.toFinset ∩ ys.toFinset := by
    ext a
    simp [List.mem_filter]
  have h2 : (ys.filter (fun a => a ∈ xs)).toFinset = ys.toFinset ∩ xs.toFinset := by
    ext a
    simp [List.mem_filter]
  rw [← List.toFinset_card_of_nodup hx2, ← List.toFinset_card_of_nodup hy2, h1, h2,
    Finset.inter_comm]

theorem filterMap_tid_eq (nodes : List TreeNode) :
    ∀ (l : List Edge),
      (∀ e ∈ l, ∃ m, m ∈ nodes ∧ e.node = some m ∧ e.track_id = some m.ID) →
      l.filterMap (fun e => e.track_id) = (emitted l).map (fun m => m.ID) := by
  intro l
  induction l with
  | nil => intro _; rfl
  | cons e rest ih =>
    intro h
    rcases h e (List.mem_cons_self e rest) with ⟨m, -, hnode, htid⟩
    have hr := ih (fun x hx => h x (List.mem_cons_of_mem e hx))
    simp only [emitted] at hr ⊢
    simp [List.filterMap_cons, htid, hnode, hr]

theorem emitted_ids_nodup (nodes : List TreeNode) (l : List Edge)
    (hids : (nodes.map (fun n => n.ID)).Nodup)
    (hsub : ∀ n ∈ emitted l, n ∈ nodes) (hnodup : (emitted l).Nodup) :
    ((emitted l).map (fun n => n.ID)).Nodup := by
  have hinj : ∀ x ∈ nodes, ∀ y ∈ nodes, x.ID = y.ID → x = y :=
    List.inj_on_of_nodup_map hids
  exact List.Nodup.map_on
    (fun x hx y hy hxy => hinj x (hsub x hx) y (hsub y hy) hxy) hnodup

theorem per_parent_count (mains : List Edge) (nodes : List TreeNode)
    (hEdge : Edge) (n : TreeNode) (hn : hEdge.node = some n)
    (hshape : ∀ e ∈ mains, ∃ m, m ∈ nodes ∧ e.node = some m ∧ e.track_id = some m.ID)
    (hidsN : (mains.filterMap (fun e => e.track_id)).Nodup)
    (hcsN : n.children.Nodup) :
    (mains.filter (fun c => edgeChildMatch c hEdge)).length =
      (n.children.filter
        (fun cid => mains.any (fun e => e.track_id = some cid))).length := by
  have hts : ∀ e ∈ mains, e.track_id.isSome := by
    intro e he
    rcases hshape e he with ⟨m, -, -, htid⟩
    simp [htid]
  have h1 := filter_match_length hEdge n hn mains hts
  have h2 : n.children.filter
        (fun cid => mains.any (fun e => e.track_id = some cid)) =
      n.children.filter
        (fun cid => cid ∈ mains.filterMap (fun e => e.track_id)) := by
    apply List.filter_congr
    intro cid _
    rw [Bool.eq_iff_iff]
    simp [List.any_eq_true, List.mem_filterMap]
  rw [h1, h2]
  exact filter_mem_length_comm _ _ hidsN hcsN

/-- C6: after the traversal, for every main edge with a node
back-reference and every main edge whose track identity is among that
node's child identities, exactly one connector edge is emitted from the
parent edge's end point to the child edge's start point (the edge list is
the main edges followed by exactly the per-pair connector list); every
connector carries no track identity and no node back-reference; and the
connector count equals, summed over parents, the number of their children
appearing as some main edge's track identity. -/
theorem hyperedge_synthesis_spec :
    ∀ (nodes : List TreeNode) (n_roots : Nat), Precond nodes n_roots →
      (∀ n ∈ nodes, n.children.Nodup) →
      ∃ edges anns, layout_tree nodes n_roots = some (edges, anns) ∧
        edges = edges.filter (fun e => e.node.isSome) ++
          connectorsOf (edges.filter (fun e => e.node.isSome)) ∧
        (∀ e ∈ connectorsOf (edges.filter (fun e => e.node.isSome)),
          e.track_id = none ∧ e.node = none) ∧
        (connectorsOf (edges.filter (fun e => e.node.isSome))).length =
          specConnectorCount (edges.filter (fun e => e.node.isSome)) := by
  intro nodes k hpre hkids
  obtain ⟨sF, hrun, hInvF, hqF, hcov⟩ := layoutRun_final nodes k hpre
  obtain ⟨-, -, -, hids, -, -, -, -, -⟩ := hpre
  have hsome : ∀ e ∈ sF.edges, e.node.isSome := by
    intro e he
    rcases hInvF.edges_node e he with ⟨n, -, hn, -⟩
    simp [hn]
  have hfilter : (hyperedgePass sF.edges).filter (fun e => e.node.isSome) =
      sF.edges := hyperedgePass_filter sF.edges hsome
  have hemsub : ∀ n ∈ emitted sF.edges, n ∈ nodes := by
    intro n hn
    exact ((hInvF.core.seen_iff n).mp (List.mem_append_left _ hn)).1
  have hemnodup : (emitted sF.edges).Nodup := by
    have hx := hInvF.core.seen_nodup
    rwa [hqF, List.append_nil] at hx
  have hidsN : (sF.edges.filterMap (fun e => e.track_id)).Nodup := by
    rw [filterMap_tid_eq nodes sF.edges hInvF.edges_node]
    exact emitted_ids_nodup nodes sF.edges hids hemsub hemnodup
  refine ⟨hyperedgePass sF.edges, sF.annotations, ?_, ?_, ?_, ?_⟩
  · unfold layout_tree
    rw [hrun, Option.map_some']
  · rw [hfilter]; rfl
  · rw [hfilter]; exact connectorsOf_none sF.edges
  · rw [hfilter]
    have hflat : (connectorsOf sF.edges).length =
        ((sF.edges.filter (fun e => e.node.isSome)).map
          (fun h => (sF.edges.filter (fun c => edgeChildMatch c h)).length)).sum := by
      unfold connectorsOf
      rw [List.length_flatten, List.map_map]
      refine congrArg List.sum (List.map_congr_left ?_)
      intro hE _
      simp
    have hfe : sF.edges.filter (fun e => e.node.isSome) = sF.edges :=
      List.filter_eq_self.mpr (fun e he => by simpa using hsome e he)
    rw [hflat, hfe]
    unfold specConnectorCount
    refine congrArg List.sum (List.map_congr_left ?_)
    intro hE hmem
    rcases hInvF.edges_node hE hmem with ⟨n, hnn, hn, -⟩
    have hper := per_parent_count sF.edges nodes hE n hn hInvF.edges_node hidsN
      (hkids n hnn)
    rw [hper]
    simp only [childMatchCount, hn]

/-- Witness for C6: the split scenario satisfies the hypotheses, so its
layout exists and decomposes into mains plus connectors. -/
theorem hyperedge_synthesis_spec_witness :
    (layout_tree c5nodes 1).isSome = true := by
  obtain ⟨edges, anns, hsome, -, -, -⟩ :=
    hyperedge_synthesis_spec c5nodes 1 c5Precond (by decide)
  rw [hsome]
  rfl
